import Mathlib

/-!
Shallow embedding of the persistent collection engine of `softwarespot/go-helpers`
(package `storage` plus the in-memory LRU cache), and proofs about the claims of
its specification.

Conventions of the embedding:
* Times (`UnixMilli` values) and durations (`time.Duration`) are modelled as `Int`.
* A collection's SQLite table is modelled as a `List` of row structures, in rowid
  order (insertion order); `WHERE` clauses become `List.filter`, `ORDER BY ... LIMIT 1`
  becomes `insertionSort` + `head?`.
* The JSON codec and the SHA-256 key hasher are abstracted: a stored key is
  represented by its content hash, an opaque value of a type with decidable
  equality.  Fallible encoding (claim C7) is modelled by explicit `Option`-valued
  encoder parameters.
* `(value, ok, err)` results are modelled by the `OpResult` type below, which
  separates "found", "not found (nil error)" and "error".
-/

namespace GoStorage

/-- Result of a Go `(value, ok, err)` triple: `found v` is `(v, true, nil)`,
`notFound` is `(zero, false, nil)`, and `failed msg` is a non-nil error. -/
inductive OpResult (V : Type) where
  | found : V → OpResult V
  | notFound : OpResult V
  | failed : String → OpResult V
deriving DecidableEq, Repr

/-- Embedding of `hasKeyExpired` (src/storage/helpers.go lines 42-47):
`expiresAt == 0` is the never-expires sentinel, otherwise expired iff
`expiresAt < now` (strict). -/
def hasKeyExpired (expiresAt now : Int) : Bool :=
  if expiresAt = 0 then false else decide (expiresAt < now)

/-- The SQL liveness filter used by the collection queries:
`expires_at = 0 OR expires_at > ?` with `?` bound to `nowUnixMilli()`.
This is also the spec's liveness predicate (`live iff expires_at == 0 or expires_at > now`). -/
def isLive (expiresAt now : Int) : Bool :=
  expiresAt == 0 || decide (now < expiresAt)

/-- The `WHERE` clause of the sweep `Storage.cleanupExpired`
(src/storage/storage.go lines 117-124): `expires_at != 0 AND expires_at <= ?`. -/
def sweepHits (expiresAt now : Int) : Bool :=
  !(expiresAt == 0) && decide (expiresAt ≤ now)

/-- Embedding of `getKeyExpirationAsMilli` (src/storage/helpers.go lines 35-40):
a zero duration yields the never-expires sentinel `0`, otherwise `now + expiration`. -/
def getKeyExpirationAsMilli (expiration now : Int) : Int :=
  if expiration = 0 then 0 else now + expiration

/-- Embedding of the per-rune step of `getNormalizedTableName`
(src/storage/helpers.go lines 16-23): keep `[a-z0-9]`, replace anything else
with an underscore.  The rune has already been lower-cased. -/
def normalizeRune (c : Char) : Char :=
  if ('a' ≤ c && c ≤ 'z') || ('0' ≤ c && c ≤ '9') then c else '_'

/-- Normalization of one name: Go lower-cases the string
(`strings.ToLower`; `Char.toLower` matches it on the ASCII inputs used here)
and then maps `normalizeRune` over its runes. -/
def normalizeName (s : String) : String :=
  String.mk (s.data.map (fun c => normalizeRune c.toLower))

/-- Embedding of `getNormalizedTableName` (src/storage/helpers.go lines 13-29):
normalize each name, writing a `'_'` separator after every part but the last. -/
def getNormalizedTableName : List String → String
  | [] => ""
  | [n] => normalizeName n
  | n :: rest => normalizeName n ++ "_" ++ getNormalizedTableName rest

/-- Table name used by `NewMap` for a user-supplied name. -/
def mapTableName (name : String) : String :=
  getNormalizedTableName ["map", name]

/-- Table name used by `NewCache`: it first normalizes `("cache", name)` and then
hands the result to `NewMap`, which normalizes again with kind `"map"`
(src/storage/cache.go lines 15-17). -/
def cacheTableName (name : String) : String :=
  mapTableName (getNormalizedTableName ["cache", name])

/-- The collection kinds that derive table names in the storage package. -/
def collectionKinds : List String :=
  ["map", "set", "list", "queue", "stack", "pqueue", "cache"]

/-- A name is safe when all of its characters are lower-case ASCII letters or digits. -/
def isSafeName (s : String) : Bool :=
  s.data.all (fun c => ('a' ≤ c && c ≤ 'z') || ('0' ≤ c && c ≤ '9'))

theorem normalizeRune_of_safe {c : Char}
    (h : (('a' ≤ c && c ≤ 'z') || ('0' ≤ c && c ≤ '9')) = true) :
    normalizeRune c = c := by
  simp [normalizeRune, h]

theorem char_toNat_le_of_le {a b : Char} (h : a ≤ b) : a.toNat ≤ b.toNat := by
  rw [Char.le_def, UInt32.le_def, BitVec.le_def] at h
  exact h

theorem toLower_of_safe {c : Char}
    (h : (('a' ≤ c && c ≤ 'z') || ('0' ≤ c && c ≤ '9')) = true) :
    c.toLower = c := by
  have hno : ¬ (c.toNat ≥ 65 ∧ c.toNat ≤ 90) := by
    rcases Bool.or_eq_true_iff.mp h with h' | h'
    · have h1 : ('a' : Char) ≤ c := of_decide_eq_true (Bool.and_eq_true_iff.mp h').1
      have hle := char_toNat_le_of_le h1
      have ha : ('a' : Char).toNat = 97 := rfl
      omega
    · have h2 : c ≤ '9' := of_decide_eq_true (Bool.and_eq_true_iff.mp h').2
      have hle := char_toNat_le_of_le h2
      have h9 : ('9' : Char).toNat = 57 := rfl
      omega
  simp [Char.toLower, hno]

theorem normalizeName_of_safe {s : String} (h : isSafeName s = true) :
    normalizeName s = s := by
  have hall := List.all_eq_true.mp h
  cases s with
  | mk data =>
    simp only [normalizeName]
    congr 1
    induction data with
    | nil => rfl
    | cons c cs ih =>
      have hc := hall c (by simp)
      have ihh : cs.map (fun c => normalizeRune c.toLower) = cs := by
        apply ih
        · simp only [isSafeName] at h ⊢
          rw [List.all_cons] at h
          exact (Bool.and_eq_true_iff.mp h).2
        · intro x hx
          exact hall x (List.mem_cons_of_mem _ hx)
      simp [List.map_cons, ihh, toLower_of_safe hc, normalizeRune_of_safe hc]

theorem not_underscore_mem_of_safe {s : String} (h : isSafeName s = true) :
    '_' ∉ s.data := by
  intro hm
  have := List.all_eq_true.mp h _ hm
  exact absurd this (by decide)

theorem safe_of_mem_kinds : ∀ k ∈ collectionKinds, isSafeName k = true := by
  decide

theorem append_sep_inj : ∀ {k₁ k₂ n₁ n₂ : List Char},
    '_' ∉ k₁ → '_' ∉ k₂ → k₁ ++ '_' :: n₁ = k₂ ++ '_' :: n₂ → k₁ = k₂ ∧ n₁ = n₂ := by
  intro k₁
  induction k₁ with
  | nil =>
    intro k₂ n₁ n₂ h₁ h₂ he
    cases k₂ with
    | nil =>
      simp only [List.nil_append] at he
      exact ⟨rfl, (List.cons.injEq _ _ _ _ ▸ he).2⟩
    | cons c t =>
      simp only [List.nil_append, List.cons_append] at he
      injection he with h1 h2
      exact absurd (by rw [h1]; exact List.mem_cons_self _ _) h₂
  | cons c t ih =>
    intro k₂ n₁ n₂ h₁ h₂ he
    cases k₂ with
    | nil =>
      simp only [List.cons_append, List.nil_append] at he
      injection he with h1 h2
      exact absurd (by rw [← h1]; exact List.mem_cons_self _ _) h₁
    | cons c' t' =>
      simp only [List.cons_append] at he
      injection he with h1 h2
      obtain ⟨ht, hn⟩ :=
        ih (fun hm => h₁ (List.mem_cons_of_mem _ hm))
          (fun hm => h₂ (List.mem_cons_of_mem _ hm)) h2
      exact ⟨by rw [h1, ht], hn⟩

theorem getNormalizedTableName_pair (a b : String) :
    getNormalizedTableName [a, b] = normalizeName a ++ "_" ++ normalizeName b := rfl

/-- C3 counterexample: the table-name derivation is not injective across
collections.  `NewCache` with user name `"foo"` and `NewMap` with user name
`"cache_foo"` are distinct `(kind, name)` inputs, yet both derive the table
`map_cache_foo`, so the two distinct collections alias one table. -/
theorem C3_counterexample :
    (("cache", "foo") : String × String) ≠ ("map", "cache_foo") ∧
    cacheTableName "foo" = mapTableName "cache_foo" := by
  exact ⟨by decide, by decide⟩

/-- C3 (amended): the derivation `normalize(kind, name)` is deterministic, and it
is injective as long as user names are restricted to lower-case alphanumeric
characters: two collections whose kinds come from the storage package's kind set
and whose names are safe derive the same table name only if they have the same
kind and the same name.  For unrestricted names the uniqueness claim fails
(see `C3_counterexample`). -/
theorem C3_tableName_injective_on_safe_names
    (k₁ k₂ n₁ n₂ : String)
    (hk₁ : k₁ ∈ collectionKinds) (hk₂ : k₂ ∈ collectionKinds)
    (hn₁ : isSafeName n₁ = true) (hn₂ : isSafeName n₂ = true)
    (he : getNormalizedTableName [k₁, n₁] = getNormalizedTableName [k₂, n₂]) :
    k₁ = k₂ ∧ n₁ = n₂ := by
  have hs₁ := safe_of_mem_kinds k₁ hk₁
  have hs₂ := safe_of_mem_kinds k₂ hk₂
  rw [getNormalizedTableName_pair, getNormalizedTableName_pair,
    normalizeName_of_safe hs₁, normalizeName_of_safe hs₂,
    normalizeName_of_safe hn₁, normalizeName_of_safe hn₂] at he
  have hdata := congrArg String.data he
  simp only [String.data_append] at hdata
  have hlist : k₁.data ++ '_' :: n₁.data = k₂.data ++ '_' :: n₂.data := by
    simpa using hdata
  obtain ⟨hk, hn⟩ :=
    append_sep_inj (not_underscore_mem_of_safe hs₁) (not_underscore_mem_of_safe hs₂) hlist
  exact ⟨String.ext hk, String.ext hn⟩

/-- Witness for `C3_tableName_injective_on_safe_names` at concrete inputs. -/
theorem C3_tableName_injective_on_safe_names_witness :
    ("map" ∈ collectionKinds) ∧ isSafeName "a1" = true ∧
    (("map" : String) = "map" ∧ ("a1" : String) = "a1") :=
  ⟨by decide, by decide,
    C3_tableName_injective_on_safe_names "map" "map" "a1" "a1"
      (by decide) (by decide) (by decide) (by decide) rfl⟩

/-- A row of a map/set/cache table
(`key_hash PK, key, value, expires_at, updated_at`).  The JSON-encoded key and
its SHA-256 hash are modelled together by the opaque `keyHash : K`; the decoded
value is stored directly. -/
structure MapRow (K V : Type) where
  keyHash : K
  value : V
  expiresAt : Int
  updatedAt : Int
deriving DecidableEq, Repr

/-- Embedding of `Map.Get` (src/storage/cache.go lines 316-350): point lookup by
`key_hash` (`LIMIT 1`; the hash is the primary key), then the Go-side
`hasKeyExpired` check, then decode. -/
def mapGet {K V : Type} [DecidableEq K] (rows : List (MapRow K V)) (h : K) (now : Int) :
    OpResult V :=
  match rows.find? (fun r => r.keyHash == h) with
  | none => .notFound
  | some r => if hasKeyExpired r.expiresAt now then .notFound else .found r.value

/-- Embedding of `Map.Has` (src/storage/cache.go lines 416-438):
`SELECT EXISTS(... WHERE key_hash = ? AND (expires_at = 0 OR expires_at > ?))`. -/
def mapHas {K V : Type} [DecidableEq K] (rows : List (MapRow K V)) (h : K) (now : Int) : Bool :=
  rows.any (fun r => r.keyHash == h && isLive r.expiresAt now)

/-- Embedding of `Map.MGet`'s row set (src/storage/cache.go lines 354-413):
`WHERE key_hash IN (...) AND (expires_at = 0 OR expires_at > ?)`. -/
def mapMGetRows {K V : Type} [DecidableEq K] (rows : List (MapRow K V)) (hs : List K)
    (now : Int) : List (MapRow K V) :=
  rows.filter (fun r => hs.contains r.keyHash && isLive r.expiresAt now)

/-- Embedding of `Map.Size` (src/storage/cache.go lines 537-550):
`SELECT COUNT(*) ... WHERE expires_at = 0 OR expires_at > ?`. -/
def mapSize {K V : Type} (rows : List (MapRow K V)) (now : Int) : Nat :=
  (rows.filter (fun r => isLive r.expiresAt now)).length

/-- The rows yielded by `Map.Entries` (src/storage/cache.go lines 462-506):
live rows ordered by `updated_at DESC`. -/
def mapEntriesRows {K V : Type} (rows : List (MapRow K V)) (now : Int) : List (MapRow K V) :=
  (rows.filter (fun r => isLive r.expiresAt now)).insertionSort
    (fun a b => b.updatedAt ≤ a.updatedAt)

/-- Embedding of `Map.Delete` (src/storage/cache.go lines 441-459): unconditional
`DELETE ... WHERE key_hash = ?`; deleting an absent key affects zero rows and is
not an error. -/
def mapDelete {K V : Type} [DecidableEq K] (rows : List (MapRow K V)) (h : K) :
    List (MapRow K V) :=
  rows.filter (fun r => !(r.keyHash == h))

/-- The `INSERT ... ON CONFLICT(key_hash) DO UPDATE SET value, expires_at,
updated_at` upsert shared by `Map.set` and the batch insert. -/
def upsertRow {K V : Type} [DecidableEq K] (rows : List (MapRow K V)) (row : MapRow K V) :
    List (MapRow K V) :=
  if rows.any (fun r => r.keyHash == row.keyHash) then
    rows.map (fun r =>
      if r.keyHash == row.keyHash then
        { r with value := row.value, expiresAt := row.expiresAt, updatedAt := row.updatedAt }
      else r)
  else rows ++ [row]

/-- Embedding of `Map.set` (src/storage/cache.go lines 206-233): `Set` passes a
zero duration, `SetEx` a non-zero one; the row's expiry is
`getKeyExpirationAsMilli`. -/
def mapSet {K V : Type} [DecidableEq K] (rows : List (MapRow K V)) (h : K) (v : V)
    (expiration now : Int) : List (MapRow K V) :=
  upsertRow rows ⟨h, v, getKeyExpirationAsMilli expiration now, now⟩

/-- Generic embedding of `SELECT ... WHERE <live> ORDER BY <le> LIMIT 1`:
filter, sort, take the head.  The ids of the rows are unique (primary key), so
the selected row is unambiguous. -/
def selectOne {α : Type} (le : α → α → Prop) [DecidableRel le] (live : α → Bool)
    (rows : List α) : Option α :=
  ((rows.filter live).insertionSort le).head?

/-- A queue/stack table: `id INTEGER PRIMARY KEY AUTOINCREMENT, value,
expires_at, created_at`.  `nextId` models the AUTOINCREMENT sequence (ids are
monotone and never reused). -/
structure QueueRow (V : Type) where
  id : Nat
  value : V
  expiresAt : Int
  createdAt : Int
deriving DecidableEq, Repr

structure QueueState (V : Type) where
  nextId : Nat
  rows : List (QueueRow V)
deriving DecidableEq, Repr

/-- Embedding of `Queue.enqueue` (src/unnamed/part_004 lines 70-87). -/
def queueEnqueue {V : Type} (s : QueueState V) (v : V) (expiration now : Int) : QueueState V :=
  ⟨s.nextId + 1, s.rows ++ [⟨s.nextId, v, getKeyExpirationAsMilli expiration now, now⟩]⟩

/-- The queue's dequeue ordering: `ORDER BY id ASC`. -/
def queueLE {V : Type} (a b : QueueRow V) : Prop := a.id ≤ b.id

instance {V : Type} : DecidableRel (queueLE (V := V)) :=
  fun a b => Nat.decLe a.id b.id

/-- The stack's pop ordering: `ORDER BY id DESC`. -/
def stackLE {V : Type} (a b : QueueRow V) : Prop := b.id ≤ a.id

instance {V : Type} : DecidableRel (stackLE (V := V)) :=
  fun a b => Nat.decLe b.id a.id

def queueSelect {V : Type} (s : QueueState V) (now : Int) : Option (QueueRow V) :=
  selectOne queueLE (fun r => isLive r.expiresAt now) s.rows

def stackSelect {V : Type} (s : QueueState V) (now : Int) : Option (QueueRow V) :=
  selectOne stackLE (fun r => isLive r.expiresAt now) s.rows

/-- Embedding of `Queue.Dequeue` (src/unnamed/part_004 lines 90-134): inside one
transaction, select the oldest live row, delete it by id, decode it.  A failed
selection surfaces as `sql.ErrNoRows`, which the caller converts to
`(zero, false, nil)`; the transaction is rolled back with no mutation. -/
def queueDequeue {V : Type} (s : QueueState V) (now : Int) : OpResult V × QueueState V :=
  match queueSelect s now with
  | none => (.notFound, s)
  | some r => (.found r.value, ⟨s.nextId, s.rows.filter (fun x => !(x.id == r.id))⟩)

/-- Embedding of `Queue.Peek` (src/unnamed/part_004 lines 137-161). -/
def queuePeek {V : Type} (s : QueueState V) (now : Int) : OpResult V :=
  match queueSelect s now with
  | none => .notFound
  | some r => .found r.value

/-- Embedding of `Stack.Pop` (src/unnamed/part_005 lines 90-134): same shape as
`Queue.Dequeue` with `ORDER BY id DESC`. -/
def stackPop {V : Type} (s : QueueState V) (now : Int) : OpResult V × QueueState V :=
  match stackSelect s now with
  | none => (.notFound, s)
  | some r => (.found r.value, ⟨s.nextId, s.rows.filter (fun x => !(x.id == r.id))⟩)

/-- A priority-queue table row: `id INTEGER PRIMARY KEY AUTOINCREMENT, value,
priority, expires_at, created_at`. -/
structure PQRow (V : Type) where
  id : Nat
  value : V
  priority : Int
  expiresAt : Int
  createdAt : Int
deriving DecidableEq, Repr

structure PQState (V : Type) where
  nextId : Nat
  rows : List (PQRow V)
deriving DecidableEq, Repr

/-- Embedding of `PriorityQueue.enqueueEx` (src/storage/priority_queue.go lines 73-96). -/
def pqEnqueue {V : Type} (s : PQState V) (v : V) (priority : Int) (expiration now : Int) :
    PQState V :=
  ⟨s.nextId + 1, s.rows ++ [⟨s.nextId, v, priority, getKeyExpirationAsMilli expiration now, now⟩]⟩

/-- The priority queue's dequeue ordering: `ORDER BY priority DESC, id ASC`. -/
def pqLE {V : Type} (a b : PQRow V) : Prop :=
  b.priority < a.priority ∨ (a.priority = b.priority ∧ a.id ≤ b.id)

instance {V : Type} : DecidableRel (pqLE (V := V)) := fun a b => by
  unfold pqLE
  infer_instance

def pqSelect {V : Type} (s : PQState V) (now : Int) : Option (PQRow V) :=
  selectOne pqLE (fun r => isLive r.expiresAt now) s.rows

/-- Embedding of `PriorityQueue.Dequeue` (src/storage/priority_queue.go lines
100-144): one transaction that selects the live row maximizing
`(priority DESC, id ASC)`, deletes it by id and decodes it. -/
def pqDequeue {V : Type} (s : PQState V) (now : Int) : OpResult V × PQState V :=
  match pqSelect s now with
  | none => (.notFound, s)
  | some r => (.found r.value, ⟨s.nextId, s.rows.filter (fun x => !(x.id == r.id))⟩)

/-- Embedding of `PriorityQueue.Peek` (src/storage/priority_queue.go lines
147-171): same selection as `Dequeue`, no delete. -/
def pqPeek {V : Type} (s : PQState V) (now : Int) : OpResult V :=
  match pqSelect s now with
  | none => .notFound
  | some r => .found r.value

instance {V : Type} : IsTotal (QueueRow V) queueLE :=
  ⟨fun a b => Nat.le_total a.id b.id⟩

instance {V : Type} : IsTrans (QueueRow V) queueLE :=
  ⟨fun _ _ _ => Nat.le_trans⟩

instance {V : Type} : IsTotal (QueueRow V) stackLE :=
  ⟨fun a b => Nat.le_total b.id a.id⟩

instance {V : Type} : IsTrans (QueueRow V) stackLE :=
  ⟨fun _ _ _ h1 h2 => Nat.le_trans h2 h1⟩

instance {V : Type} : IsTotal (PQRow V) pqLE := by
  constructor
  intro a b
  unfold pqLE
  rcases lt_trichotomy a.priority b.priority with h | h | h
  · exact Or.inr (Or.inl h)
  · rcases Nat.le_total a.id b.id with h' | h'
    · exact Or.inl (Or.inr ⟨h, h'⟩)
    · exact Or.inr (Or.inr ⟨h.symm, h'⟩)
  · exact Or.inl (Or.inl h)

instance {V : Type} : IsTrans (PQRow V) pqLE := by
  constructor
  intro a b c hab hbc
  unfold pqLE at hab hbc ⊢
  rcases hab with h1 | ⟨h1, h1'⟩ <;> rcases hbc with h2 | ⟨h2, h2'⟩
  · exact Or.inl (lt_trans h2 h1)
  · exact Or.inl (h2 ▸ h1)
  · exact Or.inl (h1 ▸ h2)
  · exact Or.inr ⟨h1.trans h2, h1'.trans h2'⟩

theorem selectOne_eq_none_iff {α : Type} (le : α → α → Prop) [DecidableRel le]
    (live : α → Bool) (rows : List α) :
    selectOne le live rows = none ↔ rows.filter live = [] := by
  unfold selectOne
  rw [List.head?_eq_none_iff]
  constructor
  · intro h
    have hp : List.Perm (List.insertionSort le (rows.filter live)) (rows.filter live) :=
      List.perm_insertionSort le _
    rw [h] at hp
    exact hp.symm.eq_nil
  · intro h
    rw [h]
    rfl

theorem selectOne_mem_live {α : Type} {le : α → α → Prop} [DecidableRel le]
    {live : α → Bool} {rows : List α} {r : α} (h : selectOne le live rows = some r) :
    r ∈ rows ∧ live r = true := by
  unfold selectOne at h
  cases heq : (rows.filter live).insertionSort le with
  | nil => rw [heq] at h; cases h
  | cons a t =>
    rw [heq] at h
    have ha : a = r := by simpa using h
    have : r ∈ (rows.filter live).insertionSort le := by
      rw [heq, ha]
      exact List.mem_cons_self _ _
    have := ((List.perm_insertionSort le _).mem_iff).mp this
    exact ⟨(List.mem_filter.mp this).1, (List.mem_filter.mp this).2⟩

theorem selectOne_min {α : Type} {le : α → α → Prop} [DecidableRel le]
    [IsTotal α le] [IsTrans α le] {live : α → Bool} {rows : List α} {r : α}
    (h : selectOne le live rows = some r) :
    ∀ x ∈ rows, live x = true → le r x := by
  intro x hx hlx
  unfold selectOne at h
  have hx' : x ∈ (rows.filter live).insertionSort le :=
    ((List.perm_insertionSort le _).mem_iff).mpr (List.mem_filter.mpr ⟨hx, hlx⟩)
  have hsorted := List.sorted_insertionSort le (rows.filter live)
  cases heq : (rows.filter live).insertionSort le with
  | nil => rw [heq] at h; cases h
  | cons a t =>
    rw [heq] at h hx' hsorted
    have ha : a = r := by simpa using h
    subst ha
    rcases List.mem_cons.mp hx' with rfl | hx'
    · rcases total_of le x x with h' | h' <;> exact h'
    · exact (List.sorted_cons.mp hsorted).1 x hx'

/-- Rows targeted by one sweep batch (src/storage/storage.go lines 114-142):
`DELETE ... WHERE expires_at != 0 AND expires_at <= ? ORDER BY expires_at ASC
LIMIT batchSize`. -/
def sweepBatchVictims {K V : Type} (rows : List (MapRow K V)) (now : Int)
    (batchSize : Nat) : List (MapRow K V) :=
  ((rows.filter (fun r => sweepHits r.expiresAt now)).insertionSort
    (fun a b => a.expiresAt ≤ b.expiresAt)).take batchSize

/-- Delete the victim rows from the table; rows are identified by their primary
key `key_hash`. -/
def removeVictims {K V : Type} [DecidableEq K] (rows victims : List (MapRow K V)) :
    List (MapRow K V) :=
  rows.filter (fun r => !(victims.any (fun v => v.keyHash == r.keyHash)))

/-- The batch loop of `Storage.cleanupExpired` (src/storage/storage.go lines
114-142): delete one batch, and repeat while a batch deleted exactly
`batchSize` rows.  The fuel argument only bounds the recursion; the loop always
exits through its `expired < batchSize` test first (see
`cleanupLoop_eq_filter`). -/
def cleanupLoop {K V : Type} [DecidableEq K] :
    Nat → Int → Nat → List (MapRow K V) → List (MapRow K V)
  | 0, _, _, rows => rows
  | fuel + 1, now, batchSize, rows =>
    let victims := sweepBatchVictims rows now batchSize
    let rows' := removeVictims rows victims
    if victims.length < batchSize then rows' else cleanupLoop fuel now batchSize rows'

/-- Embedding of `Storage.cleanupExpired` for one table at one instant. -/
def cleanupExpired {K V : Type} [DecidableEq K] (now : Int) (batchSize : Nat)
    (rows : List (MapRow K V)) : List (MapRow K V) :=
  cleanupLoop (rows.length + 1) now batchSize rows

theorem isLive_eq_not_sweepHits (e now : Int) : isLive e now = !(sweepHits e now) := by
  by_cases h : e = 0
  · simp [isLive, sweepHits, h]
  · by_cases h2 : e ≤ now
    · have h3 : ¬ now < e := not_lt.mpr h2
      simp [isLive, sweepHits, h, h2, h3]
    · have h3 : now < e := not_le.mp h2
      simp [isLive, sweepHits, h, h2, h3]

theorem sweepBatchVictims_spec {K V : Type} (rows : List (MapRow K V)) (now : Int)
    (b : Nat) :
    ∀ v ∈ sweepBatchVictims rows now b, v ∈ rows ∧ sweepHits v.expiresAt now = true := by
  intro v hv
  unfold sweepBatchVictims at hv
  have hv' := List.mem_of_mem_take hv
  have hm := ((List.perm_insertionSort _ _).mem_iff).mp hv'
  exact ⟨(List.mem_filter.mp hm).1, (List.mem_filter.mp hm).2⟩

theorem removeVictims_filter_live {K V : Type} [DecidableEq K]
    {rows victims : List (MapRow K V)} {now : Int}
    (hnodup : (rows.map MapRow.keyHash).Nodup)
    (hvic : ∀ v ∈ victims, v ∈ rows ∧ sweepHits v.expiresAt now = true) :
    (removeVictims rows victims).filter (fun r => isLive r.expiresAt now) =
      rows.filter (fun r => isLive r.expiresAt now) := by
  unfold removeVictims
  rw [List.filter_filter]
  apply List.filter_congr
  intro r hr
  by_cases hlive : isLive r.expiresAt now = true
  · simp only [hlive, Bool.true_and, Bool.not_eq_true']
    rw [List.any_eq_false]
    intro v hv
    simp only [beq_iff_eq]
    intro hkeq
    obtain ⟨hvrows, hvhits⟩ := hvic v hv
    have : v = r := List.inj_on_of_nodup_map hnodup hvrows hr hkeq
    rw [this] at hvhits
    rw [isLive_eq_not_sweepHits, hvhits] at hlive
    cases hlive
  · simp only [Bool.not_eq_true] at hlive
    simp [hlive]

theorem removeVictims_of_cover {K V : Type} [DecidableEq K]
    {rows victims : List (MapRow K V)} {now : Int}
    (hnodup : (rows.map MapRow.keyHash).Nodup)
    (hvic : ∀ v ∈ victims, v ∈ rows ∧ sweepHits v.expiresAt now = true)
    (hcover : ∀ r ∈ rows, sweepHits r.expiresAt now = true → r ∈ victims) :
    removeVictims rows victims = rows.filter (fun r => isLive r.expiresAt now) := by
  unfold removeVictims
  apply List.filter_congr
  intro r hr
  by_cases hhits : sweepHits r.expiresAt now = true
  · have hrv := hcover r hr hhits
    have hany : victims.any (fun v => v.keyHash == r.keyHash) = true := by
      rw [List.any_eq_true]
      exact ⟨r, hrv, by simp⟩
    rw [hany, isLive_eq_not_sweepHits, hhits]
  · have hany : victims.any (fun v => v.keyHash == r.keyHash) = false := by
      rw [List.any_eq_false]
      intro v hv
      simp only [beq_iff_eq]
      intro hkeq
      obtain ⟨hvrows, hvhits⟩ := hvic v hv
      have : v = r := List.inj_on_of_nodup_map hnodup hvrows hr hkeq
      rw [this] at hvhits
      exact hhits hvhits
    rw [hany, isLive_eq_not_sweepHits]
    simp only [Bool.not_eq_true] at hhits
    rw [hhits]

theorem cleanupLoop_eq_filter {K V : Type} [DecidableEq K] (now : Int) (b : Nat)
    (hb : 1 ≤ b) :
    ∀ (fuel : Nat) (rows : List (MapRow K V)), rows.length < fuel →
      (rows.map MapRow.keyHash).Nodup →
      cleanupLoop fuel now b rows = rows.filter (fun r => isLive r.expiresAt now) := by
  intro fuel
  induction fuel with
  | zero => intro rows hlen _; exact absurd hlen (Nat.not_lt_zero _)
  | succ fuel ih =>
    intro rows hlen hnodup
    simp only [cleanupLoop]
    have hvic := sweepBatchVictims_spec rows now b
    by_cases hvl : (sweepBatchVictims rows now b).length < b
    · rw [if_pos hvl]
      apply removeVictims_of_cover hnodup hvic
      intro r hr hhits
      unfold sweepBatchVictims at hvl ⊢
      rw [List.length_take] at hvl
      have hlt : ((rows.filter (fun r => sweepHits r.expiresAt now)).insertionSort
          (fun a b => a.expiresAt ≤ b.expiresAt)).length < b := by omega
      rw [List.take_of_length_le (Nat.le_of_lt hlt)]
      exact ((List.perm_insertionSort _ _).mem_iff).mpr
        (List.mem_filter.mpr ⟨hr, hhits⟩)
    · rw [if_neg hvl]
      have hne : sweepBatchVictims rows now b ≠ [] := by
        intro hnil
        rw [hnil] at hvl
        simp at hvl
        omega
      obtain ⟨v, hv⟩ := List.exists_mem_of_ne_nil _ hne
      obtain ⟨hvrows, hvhits⟩ := hvic v hv
      have hvout : v ∉ removeVictims rows (sweepBatchVictims rows now b) := by
        unfold removeVictims
        intro hmem
        have := (List.mem_filter.mp hmem).2
        simp only [Bool.not_eq_true'] at this
        rw [List.any_eq_false] at this
        exact absurd (by simp : (v.keyHash == v.keyHash) = true) (this v hv)
      have hsub : List.Sublist (removeVictims rows (sweepBatchVictims rows now b)) rows :=
        List.filter_sublist _
      have hlt : (removeVictims rows (sweepBatchVictims rows now b)).length <
          rows.length := by
        rcases Nat.lt_or_ge (removeVictims rows (sweepBatchVictims rows now b)).length
          rows.length with h | h
        · exact h
        · have heq : removeVictims rows (sweepBatchVictims rows now b) = rows :=
            hsub.eq_of_length (Nat.le_antisymm hsub.length_le h)
          apply absurd _ hvout
          rw [heq]
          exact hvrows
      have hnodup' : ((removeVictims rows (sweepBatchVictims rows now b)).map
          MapRow.keyHash).Nodup :=
        (hnodup.sublist (hsub.map MapRow.keyHash))
      rw [ih _ (by omega) hnodup']
      exact removeVictims_filter_live hnodup hvic

/-- The net effect of one sweep pass over a table: exactly the rows failing the
liveness predicate are deleted. -/
theorem cleanupExpired_eq_filter {K V : Type} [DecidableEq K] (now : Int) (b : Nat)
    (hb : 1 ≤ b) (rows : List (MapRow K V))
    (hnodup : (rows.map MapRow.keyHash).Nodup) :
    cleanupExpired now b rows = rows.filter (fun r => isLive r.expiresAt now) :=
  cleanupLoop_eq_filter now b hb _ rows (Nat.lt_succ_self _) hnodup

theorem isLive_eq_false_of_hasKeyExpired {e now : Int} (h : hasKeyExpired e now = true) :
    isLive e now = false := by
  unfold hasKeyExpired at h
  by_cases h0 : e = 0
  · rw [if_pos h0] at h; cases h
  · rw [if_neg h0] at h
    have hlt : e < now := of_decide_eq_true h
    have h1 : ¬ now < e := by omega
    simp [isLive, h0, h1]

theorem find?_keyHash_eq_some {K V : Type} [DecidableEq K] {rows : List (MapRow K V)}
    {r : MapRow K V} (hnodup : (rows.map MapRow.keyHash).Nodup) (hr : r ∈ rows) :
    rows.find? (fun x => x.keyHash == r.keyHash) = some r := by
  induction rows with
  | nil => cases hr
  | cons a t ih =>
    rw [List.map_cons, List.nodup_cons] at hnodup
    rcases List.mem_cons.mp hr with rfl | hr'
    · simp [List.find?]
    · have hne : (a.keyHash == r.keyHash) = false := by
        rw [beq_eq_false_iff_ne]
        intro hEq
        exact hnodup.1 (hEq ▸ List.mem_map_of_mem MapRow.keyHash hr')
      rw [List.find?, hne]
      exact ih hnodup.2 hr'

/-- C2 counterexample: the liveness predicate of the spec is not what every read
uses.  At the boundary instant `expires_at == now` (here both `5`), the row is
not live (`expires_at > now` fails) and `Map.Has` rejects it, but `Map.Get`
(whose lazy check `hasKeyExpired` uses `expires_at < now`) still returns it. -/
theorem C2_counterexample :
    isLive 5 5 = false ∧
    mapGet [(⟨0, 7, 5, 0⟩ : MapRow Nat Nat)] 0 5 = .found 7 ∧
    mapHas [(⟨0, 7, 5, 0⟩ : MapRow Nat Nat)] 0 5 = false := by
  decide

/-- C2 (amended): all SQL-filtered reads (`Has`, `MGet`, `Size`, `Entries`, the
`Peek`/`Dequeue` selections) admit exactly the rows with
`expires_at = 0 ∨ expires_at > now`, and the sweep deletes exactly the rows
failing that predicate; `Map.Get` alone uses the Go-side check `hasKeyExpired`
and therefore admits exactly the rows with `expires_at = 0 ∨ expires_at ≥ now`,
additionally admitting a row at the boundary instant `expires_at = now`. -/
theorem C2_liveness_amended {K V V' : Type} [DecidableEq K]
    (rows : List (MapRow K V)) (hs : List K) (now : Int) (b : Nat)
    (q : QueueState V')
    (hnodup : (rows.map MapRow.keyHash).Nodup) (hb : 1 ≤ b) :
    (∀ h : K, mapHas rows h now = true ↔
        ∃ r ∈ rows, r.keyHash = h ∧ isLive r.expiresAt now = true) ∧
    mapSize rows now = (rows.filter (fun r => isLive r.expiresAt now)).length ∧
    (∀ r : MapRow K V, r ∈ mapEntriesRows rows now ↔
        r ∈ rows ∧ isLive r.expiresAt now = true) ∧
    (∀ r : MapRow K V, r ∈ mapMGetRows rows hs now ↔
        r ∈ rows ∧ hs.contains r.keyHash = true ∧ isLive r.expiresAt now = true) ∧
    cleanupExpired now b rows = rows.filter (fun r => isLive r.expiresAt now) ∧
    (queuePeek q now = .notFound ↔
        q.rows.filter (fun r => isLive r.expiresAt now) = []) ∧
    (∀ r, queueSelect q now = some r → r ∈ q.rows ∧ isLive r.expiresAt now = true) ∧
    (∀ r ∈ rows, mapGet rows r.keyHash now =
        (if hasKeyExpired r.expiresAt now then .notFound else .found r.value)) := by
  refine ⟨?_, rfl, ?_, ?_, cleanupExpired_eq_filter now b hb rows hnodup, ?_, ?_, ?_⟩
  · intro h
    unfold mapHas
    rw [List.any_eq_true]
    constructor
    · rintro ⟨r, hr, hp⟩
      rcases Bool.and_eq_true_iff.mp hp with ⟨h1, h2⟩
      exact ⟨r, hr, beq_iff_eq.mp h1, h2⟩
    · rintro ⟨r, hr, h1, h2⟩
      exact ⟨r, hr, Bool.and_eq_true_iff.mpr ⟨beq_iff_eq.mpr h1, h2⟩⟩
  · intro r
    unfold mapEntriesRows
    rw [(List.perm_insertionSort _ _).mem_iff, List.mem_filter]
  · intro r
    unfold mapMGetRows
    rw [List.mem_filter]
    constructor
    · rintro ⟨hr, hp⟩
      rcases Bool.and_eq_true_iff.mp hp with ⟨h1, h2⟩
      exact ⟨hr, h1, h2⟩
    · rintro ⟨hr, h1, h2⟩
      exact ⟨hr, Bool.and_eq_true_iff.mpr ⟨h1, h2⟩⟩
  · unfold queuePeek
    rw [← selectOne_eq_none_iff queueLE (fun r => isLive r.expiresAt now) q.rows]
    cases h : queueSelect q now <;> simp [queueSelect] at h ⊢ <;> simp [h]
  · intro r hr
    exact selectOne_mem_live hr
  · intro r hr
    unfold mapGet
    rw [find?_keyHash_eq_some hnodup hr]

/-- Witness for `C2_liveness_amended` at a one-row table. -/
theorem C2_liveness_amended_witness :
    (([(⟨0, 1, 0, 0⟩ : MapRow Nat Nat)].map MapRow.keyHash).Nodup ∧ 1 ≤ 1) ∧
    cleanupExpired 0 1 [(⟨0, 1, 0, 0⟩ : MapRow Nat Nat)] =
      [(⟨0, 1, 0, 0⟩ : MapRow Nat Nat)] := by
  constructor
  · exact ⟨by decide, by decide⟩
  · have h := (C2_liveness_amended [(⟨0, 1, 0, 0⟩ : MapRow Nat Nat)] [0] 0 1
      (⟨0, []⟩ : QueueState Nat) (by decide) (by decide)).2.2.2.2.1
    rw [h]
    decide

/-- C4: absence is never reported as an error.  A key that was never written, or
whose row has expired (its expiry instant lies strictly in the past, the
`hasKeyExpired` check), makes `Map.Get` return `(zero, false, nil)`; and
`Dequeue`/`Pop` on an empty or all-expired Queue/Stack/PriorityQueue returns
`(zero, false, nil)` and leaves the table unchanged. -/
theorem C4_absence_is_not_error {K V V1 V2 V3 : Type} [DecidableEq K]
    (rows : List (MapRow K V)) (h : K) (now : Int)
    (q : QueueState V1) (st : QueueState V2) (pq : PQState V3)
    (hmap : ∀ r ∈ rows, r.keyHash = h → hasKeyExpired r.expiresAt now = true)
    (hq : ∀ r ∈ q.rows, hasKeyExpired r.expiresAt now = true)
    (hst : ∀ r ∈ st.rows, hasKeyExpired r.expiresAt now = true)
    (hpq : ∀ r ∈ pq.rows, hasKeyExpired r.expiresAt now = true) :
    mapGet rows h now = .notFound ∧
    queueDequeue q now = (.notFound, q) ∧
    stackPop st now = (.notFound, st) ∧
    pqDequeue pq now = (.notFound, pq) := by
  refine ⟨?_, ?_, ?_, ?_⟩
  · unfold mapGet
    cases hf : rows.find? (fun x => x.keyHash == h) with
    | none => rfl
    | some r =>
      have hr := List.mem_of_find?_eq_some hf
      have hk : r.keyHash = h := by
        have hp := List.find?_some hf
        exact beq_iff_eq.mp hp
      simp [hmap r hr hk]
  · unfold queueDequeue
    have hnone : queueSelect q now = none := by
      unfold queueSelect
      rw [selectOne_eq_none_iff]
      rw [List.filter_eq_nil_iff]
      intro r hr
      rw [isLive_eq_false_of_hasKeyExpired (hq r hr)]
      simp
    rw [hnone]
  · unfold stackPop
    have hnone : stackSelect st now = none := by
      unfold stackSelect
      rw [selectOne_eq_none_iff]
      rw [List.filter_eq_nil_iff]
      intro r hr
      rw [isLive_eq_false_of_hasKeyExpired (hst r hr)]
      simp
    rw [hnone]
  · unfold pqDequeue
    have hnone : pqSelect pq now = none := by
      unfold pqSelect
      rw [selectOne_eq_none_iff]
      rw [List.filter_eq_nil_iff]
      intro r hr
      rw [isLive_eq_false_of_hasKeyExpired (hpq r hr)]
      simp
    rw [hnone]

/-- Witness for `C4_absence_is_not_error`: an absent key on a one-row map table
with an expired row, and queues holding only expired rows. -/
theorem C4_absence_is_not_error_witness :
    mapGet [(⟨0, 9, 3, 0⟩ : MapRow Nat Nat)] 0 7 = .notFound ∧
    queueDequeue (⟨1, [⟨0, 4, 3, 0⟩]⟩ : QueueState Nat) 7 =
      (.notFound, ⟨1, [⟨0, 4, 3, 0⟩]⟩) ∧
    stackPop (⟨0, []⟩ : QueueState Nat) 7 = (.notFound, ⟨0, []⟩) ∧
    pqDequeue (⟨1, [⟨0, 4, 2, 3, 0⟩]⟩ : PQState Nat) 7 =
      (.notFound, ⟨1, [⟨0, 4, 2, 3, 0⟩]⟩) :=
  C4_absence_is_not_error [(⟨0, 9, 3, 0⟩ : MapRow Nat Nat)] 0 7
    (⟨1, [⟨0, 4, 3, 0⟩]⟩ : QueueState Nat) (⟨0, []⟩ : QueueState Nat)
    (⟨1, [⟨0, 4, 2, 3, 0⟩]⟩ : PQState Nat)
    (by decide) (by decide) (by decide) (by decide)

theorem pq_filter_ne_id_eq_erase {V : Type} [DecidableEq V] {rows : List (PQRow V)}
    {r : PQRow V} (hids : (rows.map PQRow.id).Nodup) (hr : r ∈ rows) :
    rows.filter (fun x => !(x.id == r.id)) = rows.erase r := by
  have hnodup : rows.Nodup := List.Nodup.of_map _ hids
  rw [hnodup.erase_eq_filter r]
  apply List.filter_congr
  intro x hx
  by_cases hxr : x = r
  · subst hxr
    simp
  · have hid : x.id ≠ r.id := by
      intro hEq
      exact hxr (List.inj_on_of_nodup_map hids hx hr hEq)
    have h1 : (x.id == r.id) = false := beq_eq_false_iff_ne.mpr hid
    have h2 : (x != r) = true := bne_iff_ne.mpr hxr
    rw [h1, h2]
    rfl

/-- C5: `PriorityQueue.Dequeue` removes and returns the live row with the
highest priority, ties broken by the smallest (oldest) surrogate id; the
selection and the delete form a single transaction (`pqDequeue` yields the
result and the new table atomically), and `Peek` makes the same selection
without deleting.  Row ids are unique (`id` is the AUTOINCREMENT primary key). -/
theorem C5_pq_dequeue_peek {V : Type} [DecidableEq V] (s : PQState V) (now : Int)
    (hids : (s.rows.map PQRow.id).Nodup) :
    (s.rows.filter (fun r => isLive r.expiresAt now) = [] →
        pqDequeue s now = (.notFound, s) ∧ pqPeek s now = .notFound) ∧
    (s.rows.filter (fun r => isLive r.expiresAt now) ≠ [] →
        ∃ r, pqSelect s now = some r) ∧
    (∀ r, pqSelect s now = some r →
        r ∈ s.rows ∧ isLive r.expiresAt now = true ∧
        (∀ x ∈ s.rows, isLive x.expiresAt now = true → x ≠ r →
            x.priority < r.priority ∨ (x.priority = r.priority ∧ r.id < x.id)) ∧
        pqDequeue s now =
          (.found r.value, ⟨s.nextId, s.rows.filter (fun x => !(x.id == r.id))⟩) ∧
        pqPeek s now = .found r.value ∧
        List.Perm s.rows (r :: s.rows.filter (fun x => !(x.id == r.id)))) := by
  refine ⟨?_, ?_, ?_⟩
  · intro hnil
    have hnone : pqSelect s now = none := by
      unfold pqSelect
      rw [selectOne_eq_none_iff]
      exact hnil
    unfold pqDequeue pqPeek
    rw [hnone]
    exact ⟨rfl, rfl⟩
  · intro hne
    cases hsel : pqSelect s now with
    | none =>
      unfold pqSelect at hsel
      rw [selectOne_eq_none_iff] at hsel
      exact absurd hsel hne
    | some r => exact ⟨r, rfl⟩
  · intro r hsel
    obtain ⟨hmem, hlive⟩ := selectOne_mem_live hsel
    have hmin := selectOne_min hsel
    refine ⟨hmem, hlive, ?_, ?_, ?_, ?_⟩
    · intro x hx hxl hxr
      have hle := hmin x hx hxl
      unfold pqLE at hle
      have hid : r.id ≠ x.id := by
        intro hEq
        exact hxr (List.inj_on_of_nodup_map hids hx hmem hEq.symm)
      rcases hle with h1 | ⟨h1, h2⟩
      · exact Or.inl h1
      · exact Or.inr ⟨h1.symm, lt_of_le_of_ne h2 hid⟩
    · unfold pqDequeue
      rw [hsel]
    · unfold pqPeek
      rw [hsel]
    · have herase := pq_filter_ne_id_eq_erase hids hmem
      rw [herase]
      exact List.perm_cons_erase hmem

/-- Witness for `C5_pq_dequeue_peek`: two live rows with equal priority; the
older id (0) wins and is deleted. -/
theorem C5_pq_dequeue_peek_witness :
    ((([⟨0, 10, 3, 0, 0⟩, ⟨1, 11, 3, 0, 0⟩] : List (PQRow Nat)).map PQRow.id).Nodup) ∧
    pqDequeue (⟨2, [⟨0, 10, 3, 0, 0⟩, ⟨1, 11, 3, 0, 0⟩]⟩ : PQState Nat) 5 =
      (.found 10, ⟨2, [⟨1, 11, 3, 0, 0⟩]⟩) ∧
    pqPeek (⟨2, [⟨0, 10, 3, 0, 0⟩, ⟨1, 11, 3, 0, 0⟩]⟩ : PQState Nat) 5 = .found 10 := by
  have hc := (C5_pq_dequeue_peek (⟨2, [⟨0, 10, 3, 0, 0⟩, ⟨1, 11, 3, 0, 0⟩]⟩ : PQState Nat)
    5 (by decide)).2.2 ⟨0, 10, 3, 0, 0⟩ (by decide)
  refine ⟨by decide, ?_, hc.2.2.2.2.1⟩
  have hd := hc.2.2.2.1
  rw [hd]
  decide

/-- A row of a list table (src/unnamed/part_003 lines 23-29):
`position INTEGER PRIMARY KEY, value, expires_at, created_at`.  Positions are
generated only by `Append` (`MAX(position)+1`) and by the reindex
(`ROW_NUMBER()-1`), both non-negative, so `pos : Nat`. -/
structure ListRow (V : Type) where
  pos : Nat
  value : V
  expiresAt : Int
  createdAt : Int
deriving DecidableEq, Repr

/-- `SELECT COALESCE(MAX(position) + 1, 0)` (src/unnamed/part_003 lines 79-84);
note there is no liveness filter: expired rows still count. -/
def listNextPos {V : Type} (rows : List (ListRow V)) : Nat :=
  match (rows.map ListRow.pos).max? with
  | none => 0
  | some m => m + 1

/-- Embedding of `List.appendEx` (src/unnamed/part_003 lines 71-107): inside one
transaction, read the next position and insert the new row there. -/
def listAppendEx {V : Type} (rows : List (ListRow V)) (v : V) (expiration now : Int) :
    List (ListRow V) :=
  rows ++ [⟨listNextPos rows, v, getKeyExpirationAsMilli expiration now, now⟩]

/-- The reindex transaction of `List.Delete` (src/unnamed/part_003 lines
204-247): materialize the remaining live rows ordered by position, renumber them
`0..n-1` with `ROW_NUMBER()-1`, and replace the table contents. -/
def listReindex {V : Type} (rows : List (ListRow V)) (now : Int) : List (ListRow V) :=
  (((rows.filter (fun r => isLive r.expiresAt now)).insertionSort
      (fun a b => a.pos ≤ b.pos)).enum).map (fun p => { p.2 with pos := p.1 })

/-- Embedding of `List.Delete` (src/unnamed/part_003 lines 182-252): delete the
row at the position (zero rows affected is a position-not-found error, reported
before the reindex runs), then reindex the remaining live rows. -/
def listDelete {V : Type} (rows : List (ListRow V)) (p : Nat) (now : Int) :
    Option (List (ListRow V)) :=
  let remaining := rows.filter (fun r => !(r.pos == p))
  if remaining.length = rows.length then none
  else some (listReindex remaining now)

/-- Embedding of `List.setEx` (src/unnamed/part_003 lines 145-179):
`UPDATE ... WHERE position = ?` (no liveness filter); zero affected rows is a
position-not-found error. -/
def listSetEx {V : Type} (rows : List (ListRow V)) (p : Nat) (v : V)
    (expiration now : Int) : Except String (List (ListRow V)) :=
  let updated := rows.map (fun r =>
    if r.pos == p then
      { r with value := v, expiresAt := getKeyExpirationAsMilli expiration now,
               createdAt := now }
    else r)
  if rows.any (fun r => r.pos == p) then .ok updated
  else .error "position not found"

/-- One operation of a `List` history: `Append`/`AppendEx` (a plain `Append`
passes a zero duration) or `Delete`, each executed at its own instant. -/
inductive ListOp (V : Type) where
  | append (v : V) (expiration now : Int)
  | delete (p : Nat) (now : Int)
deriving DecidableEq, Repr

/-- Run one operation; a failed `Delete` (position not found) errors out before
mutating anything, leaving the table unchanged. -/
def runListOp {V : Type} (rows : List (ListRow V)) : ListOp V → List (ListRow V)
  | .append v exp now => listAppendEx rows v exp now
  | .delete p now =>
    match listDelete rows p now with
    | none => rows
    | some rows' => rows'

def runListOps {V : Type} (ops : List (ListOp V)) (rows : List (ListRow V)) :
    List (ListRow V) :=
  ops.foldl runListOp rows

/-- The positions of the rows, in storage order, are exactly `0..n-1`. -/
def positionsContiguous {V : Type} (rows : List (ListRow V)) : Prop :=
  rows.map ListRow.pos = List.range rows.length

theorem max?_range_succ (n : Nat) : (List.range (n + 1)).max? = some n := by
  rw [List.max?_eq_some_iff Nat.le_refl
    (fun a b => by
      rcases Nat.le_total a b with h | h
      · exact Or.inr (Nat.max_eq_right h)
      · exact Or.inl (Nat.max_eq_left h))
    (fun a b c => Nat.max_le)]
  constructor
  · rw [List.mem_range]
    omega
  · intro b hb
    rw [List.mem_range] at hb
    omega

theorem listNextPos_of_contiguous {V : Type} {rows : List (ListRow V)}
    (h : positionsContiguous rows) : listNextPos rows = rows.length := by
  unfold listNextPos
  unfold positionsContiguous at h
  rw [h]
  cases hn : rows.length with
  | zero => simp
  | succ n => rw [max?_range_succ]

theorem listAppendEx_contiguous {V : Type} {rows : List (ListRow V)}
    (h : positionsContiguous rows) (v : V) (expiration now : Int) :
    positionsContiguous (listAppendEx rows v expiration now) := by
  unfold positionsContiguous listAppendEx
  rw [List.map_append, List.length_append, h, listNextPos_of_contiguous h]
  simp [List.range_succ]

theorem listReindex_contiguous {V : Type} (rows : List (ListRow V)) (now : Int) :
    positionsContiguous (listReindex rows now) := by
  unfold positionsContiguous listReindex
  rw [List.map_map]
  have hc : (ListRow.pos ∘ fun p : Nat × ListRow V => { p.2 with pos := p.1 }) =
      Prod.fst := rfl
  rw [hc, List.enum, List.enumFrom_map_fst, List.length_map, List.enumFrom_length]
  rw [List.range_eq_range']

theorem runListOp_contiguous {V : Type} {rows : List (ListRow V)}
    (h : positionsContiguous rows) (op : ListOp V) :
    positionsContiguous (runListOp rows op) := by
  cases op with
  | append v exp now => exact listAppendEx_contiguous h v exp now
  | delete p now =>
    by_cases hrem : (rows.filter (fun r => !(r.pos == p))).length = rows.length
    · simp only [runListOp, listDelete, if_pos hrem]
      exact h
    · simp only [runListOp, listDelete, if_neg hrem]
      exact listReindex_contiguous _ now

/-- C1 counterexample: with `AppendEx` and expiry, the *live* rows' positions
need not be `0..n-1`.  Append a value with a 10ms TTL at time 0 (position 0),
then a plain value (position 1); at time 20 the only live row sits at position
1, not 0. -/
theorem C1_counterexample :
    ((runListOps [ListOp.append (7 : Nat) 10 0, ListOp.append 8 0 0] []).filter
        (fun r => isLive r.expiresAt 20)).map ListRow.pos = [1] ∧
    ((runListOps [ListOp.append (7 : Nat) 10 0, ListOp.append 8 0 0] []).filter
        (fun r => isLive r.expiresAt 20)).length = 1 ∧
    ([1] : List Nat) ≠ List.range 1 := by
  refine ⟨by decide, by decide, by decide⟩

/-- C1 (amended): after any sequence of `Append`/`AppendEx` and successful
`Delete` calls, the positions of *all* stored rows form exactly the contiguous
range `0..count-1` (Append fills the next position inside one transaction, and
`Delete` restores the range by transactionally renumbering the remaining live
rows); consequently the *live* rows' positions form exactly `0..n-1` whenever
every stored row is live at the observation instant — in particular for
histories of plain `Append` and `Delete`, where no row ever expires.  When an
`AppendEx` row has expired and no `Delete` has run since, the live positions
can have gaps (see `C1_counterexample`). -/
theorem C1_positions_contiguous {V : Type} (ops : List (ListOp V)) (now : Int) :
    positionsContiguous (runListOps ops []) ∧
    ((∀ r ∈ runListOps ops ([] : List (ListRow V)), isLive r.expiresAt now = true) →
      ((runListOps ops ([] : List (ListRow V))).filter
          (fun r => isLive r.expiresAt now)).map ListRow.pos =
        List.range ((runListOps ops ([] : List (ListRow V))).filter
          (fun r => isLive r.expiresAt now)).length) := by
  have hrun : ∀ (l : List (ListOp V)) (rows : List (ListRow V)),
      positionsContiguous rows → positionsContiguous (runListOps l rows) := by
    intro l
    induction l with
    | nil => intro rows h; exact h
    | cons op rest ih =>
      intro rows h
      exact ih _ (runListOp_contiguous h op)
  have hcont : positionsContiguous (runListOps ops ([] : List (ListRow V))) := by
    apply hrun
    unfold positionsContiguous
    simp
  refine ⟨hcont, ?_⟩
  intro hall
  have hfl : (runListOps ops ([] : List (ListRow V))).filter
      (fun r => isLive r.expiresAt now) = runListOps ops ([] : List (ListRow V)) := by
    rw [List.filter_eq_self]
    exact hall
  rw [hfl]
  exact hcont

/-- Witness for `C1_positions_contiguous`: a history of two plain appends and
one delete, observed at time 3; every row is live (expiry sentinel 0). -/
theorem C1_positions_contiguous_witness :
    (∀ r ∈ runListOps [ListOp.append (5 : Nat) 0 0, ListOp.append 6 0 1,
        ListOp.delete 0 2] ([] : List (ListRow Nat)), isLive r.expiresAt 3 = true) ∧
    positionsContiguous (runListOps [ListOp.append (5 : Nat) 0 0, ListOp.append 6 0 1,
        ListOp.delete 0 2] ([] : List (ListRow Nat))) ∧
    ((runListOps [ListOp.append (5 : Nat) 0 0, ListOp.append 6 0 1,
        ListOp.delete 0 2] ([] : List (ListRow Nat))).filter
        (fun r => isLive r.expiresAt 3)).map ListRow.pos =
      List.range ((runListOps [ListOp.append (5 : Nat) 0 0, ListOp.append 6 0 1,
        ListOp.delete 0 2] ([] : List (ListRow Nat))).filter
        (fun r => isLive r.expiresAt 3)).length := by
  have hc := C1_positions_contiguous (V := Nat)
    [ListOp.append 5 0 0, ListOp.append 6 0 1, ListOp.delete 0 2] 3
  exact ⟨by decide, hc.1, hc.2 (by decide)⟩

/-- C8: `List.Set`/`SetEx` on a position holding no row affects zero rows and
returns a position-not-found error, whereas `Map.Delete` of an absent key is a
no-op: the `DELETE ... WHERE key_hash = ?` affects zero rows, the table is
unchanged and no error is returned (the embedding `mapDelete` is total — its
only Go error paths are encode/driver failures, never absence). -/
theorem C8_position_error_vs_delete_noop {K V W : Type} [DecidableEq K]
    (rows : List (MapRow K V)) (h : K)
    (lrows : List (ListRow W)) (p : Nat) (v : W) (expiration now : Int)
    (hlabs : ∀ r ∈ lrows, r.pos ≠ p)
    (hmabs : ∀ r ∈ rows, r.keyHash ≠ h) :
    listSetEx lrows p v expiration now = .error "position not found" ∧
    mapDelete rows h = rows := by
  constructor
  · unfold listSetEx
    have hany : lrows.any (fun r => r.pos == p) = false := by
      rw [List.any_eq_false]
      intro r hr
      simp [hlabs r hr]
    simp only [hany]
    rfl
  · unfold mapDelete
    rw [List.filter_eq_self]
    intro r hr
    simp [hmabs r hr]

/-- Witness for `C8_position_error_vs_delete_noop`: a one-row list with only
position 0, written at position 3; a one-row map, deleting a different hash. -/
theorem C8_position_error_vs_delete_noop_witness :
    listSetEx [(⟨0, 5, 0, 0⟩ : ListRow Nat)] 3 9 0 1 = .error "position not found" ∧
    mapDelete [(⟨0, 1, 0, 0⟩ : MapRow Nat Nat)] 1 = [(⟨0, 1, 0, 0⟩ : MapRow Nat Nat)] :=
  C8_position_error_vs_delete_noop [(⟨0, 1, 0, 0⟩ : MapRow Nat Nat)] 1
    [(⟨0, 5, 0, 0⟩ : ListRow Nat)] 3 9 0 1 (by decide) (by decide)

/-- SQLite's default bound is 999 statement parameters and a map row uses 5 of
them (src/storage/cache.go line 246). -/
def defaultSetChunkSize : Nat := 199

/-- A set row uses 4 parameters (src/storage/set.go line 102). -/
def defaultAddChunkSize : Nat := 249

/-- Generic embedding of the `Map.mset`/`Set.madd` transaction body
(src/storage/cache.go lines 248-293, src/storage/set.go lines 104-144): iterate
the inputs in order, encode each (`enc`; `none` models a `json.Marshal` failure
and aborts the transaction), accumulate the encoded row, flush a batch
statement (`apply`) whenever the accumulator reaches `chunkSize`, and flush the
remainder after the loop.  The result carries the final table and the row count
of every flushed statement. -/
def batchLoop {P R T : Type} (enc : P → Option R) (apply : T → List R → T)
    (chunkSize : Nat) : List P → T → List R → Except String (T × List Nat)
  | [], txRows, chunk =>
    if chunk.isEmpty then .ok (txRows, [])
    else .ok (apply txRows chunk, [chunk.length])
  | x :: rest, txRows, chunk =>
    match enc x with
    | some row =>
      if (chunk ++ [row]).length = chunkSize then
        match batchLoop enc apply chunkSize rest (apply txRows (chunk ++ [row])) [] with
        | .ok (t, sizes) => .ok (t, (chunk ++ [row]).length :: sizes)
        | .error e => .error e
      else batchLoop enc apply chunkSize rest txRows (chunk ++ [row])
    | none => .error "encoding"

/-- Encoding of one `Map.mset` pair: encode the key (and hash it) and encode the
value; either failure aborts. -/
def msetEncRow {K V HK W : Type} (encKey : K → Option HK) (encValue : V → Option W)
    (expiresAt now : Int) (p : K × V) : Option (MapRow HK W) :=
  match encKey p.1, encValue p.2 with
  | some hk, some w => some ⟨hk, w, expiresAt, now⟩
  | _, _ => none

/-- One `execSetBatch` statement (src/storage/cache.go lines 295-312): a
multi-values upsert, processing its rows left to right. -/
def applyBatch {HK W : Type} [DecidableEq HK] (rows chunk : List (MapRow HK W)) :
    List (MapRow HK W) :=
  chunk.foldl upsertRow rows

/-- Embedding of `Map.mset` (src/storage/cache.go lines 248-293): an empty input
returns immediately; otherwise the whole loop runs inside one `execTransaction`,
so an encode error rolls the call back to the original table. -/
def mapMSetEx {K V HK W : Type} [DecidableEq HK] (encKey : K → Option HK)
    (encValue : V → Option W) (pairs : List (K × V)) (expiration now : Int)
    (rows : List (MapRow HK W)) : List (MapRow HK W) × Option String :=
  if pairs.isEmpty then (rows, none)
  else
    match batchLoop (msetEncRow encKey encValue (getKeyExpirationAsMilli expiration now) now)
        applyBatch defaultSetChunkSize pairs rows [] with
    | .ok (rows', _) => (rows', none)
    | .error e => (rows, some e)

/-- The set upsert (src/storage/set.go lines 146-162): on a key-hash conflict
only `expires_at` and `updated_at` are overwritten (the value determines the
hash). -/
def upsertSetRow {HK W : Type} [DecidableEq HK] (rows : List (MapRow HK W))
    (row : MapRow HK W) : List (MapRow HK W) :=
  if rows.any (fun r => r.keyHash == row.keyHash) then
    rows.map (fun r =>
      if r.keyHash == row.keyHash then
        { r with expiresAt := row.expiresAt, updatedAt := row.updatedAt }
      else r)
  else rows ++ [row]

/-- One `execAddBatch` statement (src/storage/set.go lines 146-162). -/
def applyAddBatch {HK W : Type} [DecidableEq HK] (rows chunk : List (MapRow HK W)) :
    List (MapRow HK W) :=
  chunk.foldl upsertSetRow rows

/-- Encoding of one `Set.madd` value: one `encode` call yielding the stored blob
and its hash. -/
def setEncRow {V HK W : Type} (encValue : V → Option (HK × W)) (expiresAt now : Int)
    (v : V) : Option (MapRow HK W) :=
  (encValue v).map (fun p => ⟨p.1, p.2, expiresAt, now⟩)

/-- Embedding of `Set.madd` (src/storage/set.go lines 104-144). -/
def setMAddEx {V HK W : Type} [DecidableEq HK] (encValue : V → Option (HK × W))
    (values : List V) (expiration now : Int) (rows : List (MapRow HK W)) :
    List (MapRow HK W) × Option String :=
  if values.isEmpty then (rows, none)
  else
    match batchLoop (setEncRow encValue (getKeyExpirationAsMilli expiration now) now)
        applyAddBatch defaultAddChunkSize values rows [] with
    | .ok (rows', _) => (rows', none)
    | .error e => (rows, some e)

theorem batchLoop_error {P R T : Type} (enc : P → Option R) (apply : T → List R → T)
    (n : Nat) :
    ∀ (xs : List P) (t : T) (chunk : List R),
      (∃ x ∈ xs, enc x = none) →
      ∃ e, batchLoop enc apply n xs t chunk = .error e := by
  intro xs
  induction xs with
  | nil =>
    rintro t chunk ⟨x, hx, -⟩
    cases hx
  | cons a rest ih =>
    rintro t chunk ⟨x, hx, hxe⟩
    cases ha : enc a with
    | none =>
      refine ⟨"encoding", ?_⟩
      simp only [batchLoop, ha]
    | some row =>
      rcases List.mem_cons.mp hx with rfl | hx'
      · rw [ha] at hxe
        cases hxe
      · simp only [batchLoop, ha]
        by_cases hlen : (chunk ++ [row]).length = n
        · rw [if_pos hlen]
          obtain ⟨e, he⟩ := ih (apply t (chunk ++ [row])) [] ⟨x, hx', hxe⟩
          rw [he]
          exact ⟨e, rfl⟩
        · rw [if_neg hlen]
          exact ih t (chunk ++ [row]) ⟨x, hx', hxe⟩

theorem batchLoop_ok {P R T : Type} (enc : P → Option R) (apply : T → List R → T)
    (n : Nat)
    (hnil : ∀ t : T, apply t [] = t)
    (happ : ∀ (t : T) (c1 c2 : List R), apply (apply t c1) c2 = apply t (c1 ++ c2)) :
    ∀ (xs : List P) (t : T) (chunk : List R), chunk.length < n →
      (∀ x ∈ xs, (enc x).isSome = true) →
      ∃ sizes, batchLoop enc apply n xs t chunk =
          .ok (apply t (chunk ++ xs.filterMap enc), sizes) ∧
        (∀ s ∈ sizes, 1 ≤ s ∧ s ≤ n) ∧
        sizes.sum = chunk.length + (xs.filterMap enc).length := by
  intro xs
  induction xs with
  | nil =>
    intro t chunk hlen _
    by_cases hempty : chunk.isEmpty
    · have hcnil : chunk = [] := List.isEmpty_iff.mp hempty
      refine ⟨[], ?_, by simp, by simp [hcnil]⟩
      simp [batchLoop, hcnil, hnil]
    · have hcpos : 0 < chunk.length := by
        cases chunk with
        | nil => simp at hempty
        | cons c cs => simp
      refine ⟨[chunk.length], ?_, ?_, by simp⟩
      · simp only [batchLoop, if_neg hempty, List.filterMap_nil, List.append_nil]
      · intro s hs
        rcases List.mem_singleton.mp hs with rfl
        omega
  | cons a rest ih =>
    intro t chunk hlen hall
    have hsome := hall a (List.mem_cons_self a rest)
    cases ha : enc a with
    | none => rw [ha] at hsome; cases hsome
    | some row =>
      have hfm : (a :: rest).filterMap enc = row :: rest.filterMap enc := by
        rw [List.filterMap_cons, ha]
      have hrest : ∀ x ∈ rest, (enc x).isSome = true := by
        intro x hx
        exact hall x (List.mem_cons_of_mem a hx)
      by_cases hchunk : (chunk ++ [row]).length = n
      · have h0 : (0 : Nat) < n := by
          rw [← hchunk]
          simp
        obtain ⟨sizes, hres, hbound, hsum⟩ := ih (apply t (chunk ++ [row])) [] h0 hrest
        refine ⟨(chunk ++ [row]).length :: sizes, ?_, ?_, ?_⟩
        · simp only [batchLoop, ha, if_pos hchunk, hres]
          rw [happ, hfm]
          simp
        · intro s hs
          rcases List.mem_cons.mp hs with rfl | hs'
          · simp
            omega
          · exact hbound s hs'
        · rw [List.sum_cons, hsum, hfm]
          simp
          omega
      · have hlt : (chunk ++ [row]).length < n := by
          rw [List.length_append] at hchunk ⊢
          simp at hchunk ⊢
          omega
        obtain ⟨sizes, hres, hbound, hsum⟩ := ih t (chunk ++ [row]) hlt hrest
        refine ⟨sizes, ?_, hbound, ?_⟩
        · simp only [batchLoop, ha, if_neg hchunk, hres]
          rw [hfm]
          simp
        · rw [hsum, hfm]
          simp
          omega

/-- C7: `Map.MSet`/`MSetEx` and `Set.MAdd`/`MAddEx` run their whole batch inside
one transaction.  On an encode failure for any element the call returns the
original table (nothing persisted) with a non-nil error; when every element
encodes, the final table is all upserts applied in input order, and the flushed
SQL statements partition the encoded rows into chunks of at most 199 rows
(map, 5 parameters each) resp. 249 rows (set, 4 parameters each). -/
theorem C7_mset_madd_chunking {K V V2 HK W : Type} [DecidableEq HK]
    (encKey : K → Option HK) (encValue : V → Option W)
    (encSetValue : V2 → Option (HK × W))
    (pairs : List (K × V)) (values : List V2) (expiration now : Int)
    (rows rows2 : List (MapRow HK W)) :
    ((∃ p ∈ pairs,
        msetEncRow encKey encValue (getKeyExpirationAsMilli expiration now) now p = none) →
      (mapMSetEx encKey encValue pairs expiration now rows).1 = rows ∧
      ((mapMSetEx encKey encValue pairs expiration now rows).2).isSome = true) ∧
    ((∀ p ∈ pairs,
        (msetEncRow encKey encValue (getKeyExpirationAsMilli expiration now) now p).isSome
          = true) →
      mapMSetEx encKey encValue pairs expiration now rows =
        ((pairs.filterMap (msetEncRow encKey encValue
            (getKeyExpirationAsMilli expiration now) now)).foldl upsertRow rows, none) ∧
      ∃ sizes, batchLoop (msetEncRow encKey encValue
            (getKeyExpirationAsMilli expiration now) now)
          applyBatch defaultSetChunkSize pairs rows [] =
          .ok ((pairs.filterMap (msetEncRow encKey encValue
              (getKeyExpirationAsMilli expiration now) now)).foldl upsertRow rows, sizes) ∧
        (∀ s ∈ sizes, 1 ≤ s ∧ s ≤ defaultSetChunkSize) ∧
        sizes.sum = (pairs.filterMap (msetEncRow encKey encValue
            (getKeyExpirationAsMilli expiration now) now)).length) ∧
    ((∃ v ∈ values,
        setEncRow encSetValue (getKeyExpirationAsMilli expiration now) now v = none) →
      (setMAddEx encSetValue values expiration now rows2).1 = rows2 ∧
      ((setMAddEx encSetValue values expiration now rows2).2).isSome = true) ∧
    ((∀ v ∈ values,
        (setEncRow encSetValue (getKeyExpirationAsMilli expiration now) now v).isSome
          = true) →
      setMAddEx encSetValue values expiration now rows2 =
        ((values.filterMap (setEncRow encSetValue
            (getKeyExpirationAsMilli expiration now) now)).foldl upsertSetRow rows2, none) ∧
      ∃ sizes, batchLoop (setEncRow encSetValue
            (getKeyExpirationAsMilli expiration now) now)
          applyAddBatch defaultAddChunkSize values rows2 [] =
          .ok ((values.filterMap (setEncRow encSetValue
              (getKeyExpirationAsMilli expiration now) now)).foldl upsertSetRow rows2, sizes) ∧
        (∀ s ∈ sizes, 1 ≤ s ∧ s ≤ defaultAddChunkSize) ∧
        sizes.sum = (values.filterMap (setEncRow encSetValue
            (getKeyExpirationAsMilli expiration now) now)).length) := by
  refine ⟨?_, ?_, ?_, ?_⟩
  · intro hex
    obtain ⟨e, he⟩ := batchLoop_error (msetEncRow encKey encValue
      (getKeyExpirationAsMilli expiration now) now) applyBatch defaultSetChunkSize
      pairs rows [] hex
    obtain ⟨p, hp, -⟩ := hex
    cases pairs with
    | nil => cases hp
    | cons a l => exact ⟨by simp [mapMSetEx, he], by simp [mapMSetEx, he]⟩
  · intro hall
    obtain ⟨sizes, hres, hbound, hsum⟩ :=
      batchLoop_ok (msetEncRow encKey encValue
          (getKeyExpirationAsMilli expiration now) now) applyBatch defaultSetChunkSize
        (fun t => rfl) (fun t c1 c2 => (List.foldl_append _ _ _ _).symm)
        pairs rows ([] : List (MapRow HK W))
        (show ([] : List (MapRow HK W)).length < defaultSetChunkSize by
          simp only [List.length_nil, defaultSetChunkSize]
          omega) hall
    rw [List.nil_append] at hres
    constructor
    · cases pairs with
      | nil => simp [mapMSetEx]
      | cons a l => simp [mapMSetEx, hres, applyBatch]
    · exact ⟨sizes, hres, hbound, by simpa using hsum⟩
  · intro hex
    obtain ⟨e, he⟩ := batchLoop_error (setEncRow encSetValue
      (getKeyExpirationAsMilli expiration now) now) applyAddBatch defaultAddChunkSize
      values rows2 [] hex
    obtain ⟨p, hp, -⟩ := hex
    cases values with
    | nil => cases hp
    | cons a l => exact ⟨by simp [setMAddEx, he], by simp [setMAddEx, he]⟩
  · intro hall
    obtain ⟨sizes, hres, hbound, hsum⟩ :=
      batchLoop_ok (setEncRow encSetValue
          (getKeyExpirationAsMilli expiration now) now) applyAddBatch defaultAddChunkSize
        (fun t => rfl) (fun t c1 c2 => (List.foldl_append _ _ _ _).symm)
        values rows2 ([] : List (MapRow HK W))
        (show ([] : List (MapRow HK W)).length < defaultAddChunkSize by
          simp only [List.length_nil, defaultAddChunkSize]
          omega) hall
    rw [List.nil_append] at hres
    constructor
    · cases values with
      | nil => simp [setMAddEx]
      | cons a l => simp [setMAddEx, hres, applyAddBatch]
    · exact ⟨sizes, hres, hbound, by simpa using hsum⟩

/-- Witness for `C7_mset_madd_chunking`: a two-pair `MSet` where everything
encodes, and a one-pair `MSet` whose value fails to encode, leaving the
original table. -/
theorem C7_mset_madd_chunking_witness :
    mapMSetEx (fun k : Nat => some k) (fun v : Nat => some v) [(1, 2), (3, 4)] 0 5
        ([] : List (MapRow Nat Nat)) =
      (([(1, 2), (3, 4)].filterMap (msetEncRow (fun k : Nat => some k)
          (fun v : Nat => some v) (getKeyExpirationAsMilli 0 5) 5)).foldl upsertRow [],
        none) ∧
    (mapMSetEx (fun k : Nat => some k) (fun _ : Nat => (none : Option Nat)) [(1, 2)] 0 5
        ([⟨9, 9, 0, 0⟩] : List (MapRow Nat Nat))).1 = [⟨9, 9, 0, 0⟩] := by
  have h1 := (C7_mset_madd_chunking (fun k : Nat => some k) (fun v : Nat => some v)
    (fun v : Nat => some (v, v)) [(1, 2), (3, 4)] ([] : List Nat) 0 5
    ([] : List (MapRow Nat Nat)) []).2.1 (by decide)
  have h2 := (C7_mset_madd_chunking (fun k : Nat => some k)
    (fun _ : Nat => (none : Option Nat)) (fun v : Nat => some (v, v)) [(1, 2)]
    ([] : List Nat) 0 5 ([⟨9, 9, 0, 0⟩] : List (MapRow Nat Nat)) []).1
    ⟨(1, 2), by decide, by decide⟩
  exact ⟨h1.1, h2.1⟩

/-- Embedding of `Cache.Set` (src/storage/cache.go lines 28-39): a zero
configured expiration delegates to `Map.Set`, otherwise to `Map.SetEx`. -/
def cacheSet {K V : Type} [DecidableEq K] (expiration : Int) (rows : List (MapRow K V))
    (h : K) (v : V) (now : Int) : List (MapRow K V) :=
  if expiration = 0 then mapSet rows h v 0 now else mapSet rows h v expiration now

/-- Embedding of `Cache.MSet` (src/storage/cache.go lines 42-53). -/
def cacheMSet {K V HK W : Type} [DecidableEq HK] (expiration : Int)
    (encKey : K → Option HK) (encValue : V → Option W) (pairs : List (K × V))
    (now : Int) (rows : List (MapRow HK W)) : List (MapRow HK W) × Option String :=
  if expiration = 0 then mapMSetEx encKey encValue pairs 0 now rows
  else mapMSetEx encKey encValue pairs expiration now rows

/-- Embedding of `Cache.GetEx` (src/storage/cache.go lines 75-87): read through
`Map.Get`; only when the key was found *and* a non-zero TTL is configured is the
row rewritten with a refreshed expiry. -/
def cacheGetEx {K V : Type} [DecidableEq K] (expiration : Int)
    (rows : List (MapRow K V)) (h : K) (now : Int) :
    OpResult V × List (MapRow K V) :=
  match mapGet rows h now with
  | .found v =>
    if expiration = 0 then (.found v, rows)
    else (.found v, mapSet rows h v expiration now)
  | r => (r, rows)

/-- Embedding of `Cache.MGetEx` (src/storage/cache.go lines 90-102): read the
found rows through `Map.MGet`; when a positive TTL is configured and something
was found, refresh those rows through `Map.MSetEx` (modelled as the
corresponding upserts: the values were just decoded, so re-encoding them
succeeds). -/
def cacheMGetEx {K V : Type} [DecidableEq K] (expiration : Int)
    (rows : List (MapRow K V)) (hs : List K) (now : Int) :
    List (MapRow K V) × List (MapRow K V) :=
  let found := mapMGetRows rows hs now
  if decide (0 < expiration) && !found.isEmpty then
    (found, found.foldl (fun acc r => mapSet acc r.keyHash r.value expiration now) rows)
  else (found, rows)

/-- C6: a Cache constructed with `expiration == 0` is observationally a Map:
`Set` delegates to `Map.Set` and writes the never-expires sentinel `0`,
`MSet` delegates to `Map.MSet`, and `GetEx`/`MGetEx` perform no refresh
write — every TTL-sensitive operation returns the same result and leaves the
same table as the corresponding Map operation (the remaining operations
delegate unconditionally). -/
theorem C6_cache_zero_expiration_is_map {K V HK W : Type} [DecidableEq K]
    [DecidableEq HK] (rows : List (MapRow K V)) (h : K) (v : V) (now : Int)
    (hs : List K) (encKey : K → Option HK) (encValue : V → Option W)
    (pairs : List (K × V)) (rows2 : List (MapRow HK W)) :
    cacheSet 0 rows h v now = mapSet rows h v 0 now ∧
    cacheSet 0 rows h v now = upsertRow rows ⟨h, v, 0, now⟩ ∧
    cacheMSet 0 encKey encValue pairs now rows2 =
      mapMSetEx encKey encValue pairs 0 now rows2 ∧
    cacheGetEx 0 rows h now = (mapGet rows h now, rows) ∧
    cacheMGetEx 0 rows hs now = (mapMGetRows rows hs now, rows) := by
  refine ⟨rfl, ?_, rfl, ?_, ?_⟩
  · unfold cacheSet mapSet getKeyExpirationAsMilli
    simp
  · unfold cacheGetEx
    cases hg : mapGet rows h now <;> simp [hg]
  · unfold cacheMGetEx
    simp

/-- The in-memory LRU cache (src/unnamed/part_006).  The intrusive
doubly-linked recency list (`head`/`tail`, `prev`/`next`) is modelled as
`order`, the sequence of keys from `head` (most recently used) to `tail`
(least recently used); `nodes` is the assoc list `vals` of
`(key, value, expiresAt)` (a zero `expiresAt` models the zero `time.Time`,
never expiring); `size` mirrors the explicit Go counter. -/
structure LRU (K V : Type) where
  order : List K
  vals : List (K × V × Int)
  expiration : Int
  maxSize : Nat
  size : Nat
deriving DecidableEq, Repr

/-- `cacheNode.hasExpired` (src/unnamed/part_006 lines 31-36): a zero expiry
never expires, otherwise expired iff `now.After(expiresAt)`, i.e.
`expiresAt < now` strictly. -/
def nodeHasExpired (expiresAt now : Int) : Bool :=
  if expiresAt = 0 then false else decide (expiresAt < now)

/-- The map lookup `c.nodes[key]`. -/
def lruFind {K V : Type} [DecidableEq K] (c : LRU K V) (k : K) : Option (V × Int) :=
  (c.vals.find? (fun p => p.1 == k)).map (fun p => p.2)

/-- Embedding of `deleteNode` (src/unnamed/part_006 lines 252-271) for the node
keyed `k`: unlink it from the recency list, remove it from the map, decrement
the size. -/
def deleteNodeByKey {K V : Type} [DecidableEq K] (c : LRU K V) (k : K) : LRU K V :=
  { c with order := c.order.erase k,
           vals := c.vals.filter (fun p => !(p.1 == k)),
           size := c.size - 1 }

/-- Embedding of `SetWithTTL` (src/unnamed/part_006 lines 101-130): update and
move to front when the key exists; otherwise insert at the front and, if the
size now exceeds `maxSize`, evict the tail node. -/
def lruSetWithTTL {K V : Type} [DecidableEq K] (c : LRU K V) (k : K) (v : V)
    (expiration now : Int) : LRU K V :=
  let expiresAt := if 0 < expiration then now + expiration else 0
  match lruFind c k with
  | some _ =>
    { c with vals := c.vals.map (fun p => if p.1 == k then (k, v, expiresAt) else p),
             order := k :: c.order.erase k }
  | none =>
    let c1 : LRU K V :=
      { c with vals := (k, v, expiresAt) :: c.vals, order := k :: c.order,
               size := c.size + 1 }
    if c1.maxSize < c1.size then
      match c1.order.getLast? with
      | some tailKey => deleteNodeByKey c1 tailKey
      | none => c1
    else c1

/-- Embedding of `Set` (src/unnamed/part_006 lines 96-98). -/
def lruSet {K V : Type} [DecidableEq K] (c : LRU K V) (k : K) (v : V) (now : Int) :
    LRU K V :=
  lruSetWithTTL c k v c.expiration now

/-- Embedding of `Get` (src/unnamed/part_006 lines 134-151): an expired node is
deleted; a live one moves to the front. -/
def lruGet {K V : Type} [DecidableEq K] (c : LRU K V) (k : K) (now : Int) :
    Option V × LRU K V :=
  match lruFind c k with
  | none => (none, c)
  | some (v, e) =>
    if nodeHasExpired e now then (none, deleteNodeByKey c k)
    else (some v, { c with order := k :: c.order.erase k })

/-- Embedding of `Peek` (src/unnamed/part_006 lines 172-187): same liveness
check as `Get`, but a live key does not move. -/
def lruPeek {K V : Type} [DecidableEq K] (c : LRU K V) (k : K) (now : Int) :
    Option V × LRU K V :=
  match lruFind c k with
  | none => (none, c)
  | some (v, e) =>
    if nodeHasExpired e now then (none, deleteNodeByKey c k)
    else (some v, c)

/-- Embedding of `Has` (src/unnamed/part_006 lines 154-168). -/
def lruHas {K V : Type} [DecidableEq K] (c : LRU K V) (k : K) (now : Int) :
    Bool × LRU K V :=
  match lruFind c k with
  | none => (false, c)
  | some (_, e) =>
    if nodeHasExpired e now then (false, deleteNodeByKey c k)
    else (true, c)

/-- Embedding of `Delete` (src/unnamed/part_006 lines 190-197). -/
def lruDelete {K V : Type} [DecidableEq K] (c : LRU K V) (k : K) : LRU K V :=
  match lruFind c k with
  | some _ => deleteNodeByKey c k
  | none => c

/-- Embedding of `Clear` (src/unnamed/part_006 lines 207-215). -/
def lruClear {K V : Type} (c : LRU K V) : LRU K V :=
  { c with order := [], vals := [], size := 0 }

/-- Embedding of `cleanupExpiredNodes` (src/unnamed/part_006 lines 273-291):
the walk from `tail` to `head` calls `deleteNode` on every expired node, so the
net effect removes exactly the expired nodes and decrements the size once per
deletion. -/
def lruCleanup {K V : Type} [DecidableEq K] (c : LRU K V) (now : Int) : LRU K V :=
  { c with
    order := c.order.filter (fun k =>
      match lruFind c k with
      | some (_, e) => !(nodeHasExpired e now)
      | none => true),
    vals := c.vals.filter (fun p => !(nodeHasExpired p.2.2 now)),
    size := c.size - (c.vals.filter (fun p => nodeHasExpired p.2.2 now)).length }

/-- Embedding of `NewLRUCache` (src/unnamed/part_006 lines 39-48); the
constructor panics unless `0 < maxSize`. -/
def newLRU (K V : Type) (maxSize : Nat) (expiration : Int) : LRU K V :=
  ⟨[], [], expiration, maxSize, 0⟩

/-- C10: `Peek` and `Has` are not pure reads on expired entries: when the keyed
node exists but has expired, both delete it — the key becomes absent and the
size counter drops by one — before returning the not-found result; on a live
key both leave the entire cache (recency order included) unchanged. -/
theorem C10_peek_has_frame {K V : Type} [DecidableEq K] (c : LRU K V) (k : K)
    (now : Int) (v : V) (e : Int) (hfind : lruFind c k = some (v, e)) :
    (nodeHasExpired e now = true →
      lruPeek c k now = (none, deleteNodeByKey c k) ∧
      lruHas c k now = (false, deleteNodeByKey c k) ∧
      (deleteNodeByKey c k).size = c.size - 1 ∧
      lruFind (deleteNodeByKey c k) k = none ∧
      (deleteNodeByKey c k).order = c.order.erase k) ∧
    (nodeHasExpired e now = false →
      lruPeek c k now = (some v, c) ∧
      lruHas c k now = (true, c)) := by
  constructor
  · intro hexp
    refine ⟨?_, ?_, rfl, ?_, rfl⟩
    · unfold lruPeek
      rw [hfind]
      simp [hexp]
    · unfold lruHas
      rw [hfind]
      simp [hexp]
    · unfold lruFind deleteNodeByKey
      rw [Option.map_eq_none', List.find?_eq_none]
      intro p hp
      have := (List.mem_filter.mp hp).2
      simp only [Bool.not_eq_true'] at this
      simp [this]
  · intro hlive
    constructor
    · unfold lruPeek
      rw [hfind]
      simp [hlive]
    · unfold lruHas
      rw [hfind]
      simp [hlive]

/-- Witness for `C10_peek_has_frame`: a two-node cache whose key 1 expired at
time 3, observed at time 5. -/
theorem C10_peek_has_frame_witness :
    lruFind (⟨[1, 2], [(1, 10, 3), (2, 20, 0)], 0, 5, 2⟩ : LRU Nat Nat) 1 =
      some (10, 3) ∧
    lruPeek (⟨[1, 2], [(1, 10, 3), (2, 20, 0)], 0, 5, 2⟩ : LRU Nat Nat) 1 5 =
      (none, deleteNodeByKey (⟨[1, 2], [(1, 10, 3), (2, 20, 0)], 0, 5, 2⟩ : LRU Nat Nat) 1) ∧
    lruHas (⟨[1, 2], [(1, 10, 3), (2, 20, 0)], 0, 5, 2⟩ : LRU Nat Nat) 2 5 =
      (true, ⟨[1, 2], [(1, 10, 3), (2, 20, 0)], 0, 5, 2⟩) := by
  have h1 := (C10_peek_has_frame (⟨[1, 2], [(1, 10, 3), (2, 20, 0)], 0, 5, 2⟩ : LRU Nat Nat)
    1 5 10 3 (by decide)).1 (by decide)
  have h2 := (C10_peek_has_frame (⟨[1, 2], [(1, 10, 3), (2, 20, 0)], 0, 5, 2⟩ : LRU Nat Nat)
    2 5 20 0 (by decide)).2 (by decide)
  exact ⟨by decide, h1.1, h2.2⟩

/-- The coupling invariant of the LRU cache: the recency list holds each key
once, it holds exactly the keys of the node map, and the `size` counter equals
the list length. -/
def lruWF {K V : Type} [DecidableEq K] (c : LRU K V) : Prop :=
  c.order.Nodup ∧
  List.Perm c.order (c.vals.map (fun p => p.1)) ∧
  c.size = c.order.length

theorem find?_key_eq_some_of_nodup {α KT : Type} [DecidableEq KT] (f : α → KT)
    {l : List α} {x : α} (hnodup : (l.map f).Nodup) (hx : x ∈ l) :
    l.find? (fun y => f y == f x) = some x := by
  induction l with
  | nil => cases hx
  | cons a t ih =>
    rw [List.map_cons, List.nodup_cons] at hnodup
    rcases List.mem_cons.mp hx with rfl | hx'
    · simp [List.find?]
    · have hne : (f a == f x) = false := by
        rw [beq_eq_false_iff_ne]
        intro hEq
        exact hnodup.1 (hEq ▸ List.mem_map_of_mem f hx')
      rw [List.find?, hne]
      exact ih hnodup.2 hx'

theorem lruFind_isSome_iff_mem_order {K V : Type} [DecidableEq K] {c : LRU K V}
    (h : lruWF c) (k : K) : (lruFind c k).isSome = true ↔ k ∈ c.order := by
  obtain ⟨-, hperm, -⟩ := h
  unfold lruFind
  rw [Option.isSome_map', List.find?_isSome, hperm.mem_iff, List.mem_map]
  constructor
  · rintro ⟨p, hp, hpk⟩
    exact ⟨p, hp, beq_iff_eq.mp hpk⟩
  · rintro ⟨p, hp, hpk⟩
    exact ⟨p, hp, beq_iff_eq.mpr hpk⟩

theorem map_fst_filter_ne {K V : Type} [DecidableEq K] (vals : List (K × V × Int))
    (k : K) :
    (vals.filter (fun p => !(p.1 == k))).map (fun p => p.1) =
      (vals.map (fun p => p.1)).filter (fun x => !(x == k)) := by
  rw [List.filter_map]
  rfl

theorem deleteNode_wf {K V : Type} [DecidableEq K] {c : LRU K V} {k : K}
    (h : lruWF c) (hk : k ∈ c.order) :
    lruWF (deleteNodeByKey c k) ∧ (deleteNodeByKey c k).size + 1 = c.size := by
  obtain ⟨hnd, hperm, hsize⟩ := h
  have hvnd : (c.vals.map (fun p => p.1)).Nodup := hperm.nodup_iff.mp hnd
  refine ⟨⟨hnd.erase k, ?_, ?_⟩, ?_⟩
  · show (c.order.erase k).Perm
      ((c.vals.filter (fun p => !(p.1 == k))).map (fun p => p.1))
    rw [map_fst_filter_ne]
    have herase : (c.vals.map (fun p => p.1)).erase k =
        (c.vals.map (fun p => p.1)).filter (fun x => !(x == k)) := by
      rw [hvnd.erase_eq_filter k]
      rfl
    rw [← herase]
    exact hperm.erase k
  · show c.size - 1 = (c.order.erase k).length
    rw [List.length_erase_of_mem hk, hsize]
  · show c.size - 1 + 1 = c.size
    have : 1 ≤ c.size := by
      rw [hsize]
      cases ho : c.order with
      | nil => rw [ho] at hk; cases hk
      | cons a t => simp
    omega

theorem moveFront_wf {K V : Type} [DecidableEq K] {c : LRU K V} {k : K}
    (h : lruWF c) (hk : k ∈ c.order) :
    (k :: c.order.erase k).Nodup ∧
    List.Perm (k :: c.order.erase k) c.order ∧
    (k :: c.order.erase k).length = c.order.length := by
  obtain ⟨hnd, -, -⟩ := h
  refine ⟨?_, (List.perm_cons_erase hk).symm, ?_⟩
  · rw [List.nodup_cons]
    constructor
    · intro hmem
      exact absurd ((hnd.mem_erase_iff.mp hmem).1) (by simp)
    · exact hnd.erase k
  · rw [List.length_cons, List.length_erase_of_mem hk]
    have : 1 ≤ c.order.length := by
      cases ho : c.order with
      | nil => rw [ho] at hk; cases hk
      | cons a t => simp
    omega

theorem mem_order_of_lruFind_some {K V : Type} [DecidableEq K] {c : LRU K V}
    {k : K} {p : V × Int} (h : lruWF c) (hf : lruFind c k = some p) :
    k ∈ c.order := by
  rw [← lruFind_isSome_iff_mem_order h, hf]
  rfl

theorem not_mem_order_of_lruFind_none {K V : Type} [DecidableEq K] {c : LRU K V}
    {k : K} (h : lruWF c) (hf : lruFind c k = none) : k ∉ c.order := by
  rw [← lruFind_isSome_iff_mem_order h, hf]
  simp

theorem map_fst_update {K V : Type} [DecidableEq K] (vals : List (K × V × Int))
    (k : K) (v : V) (e : Int) :
    (vals.map (fun p => if p.1 == k then (k, v, e) else p)).map (fun p => p.1) =
      vals.map (fun p => p.1) := by
  rw [List.map_map]
  apply List.map_congr_left
  intro a ha
  by_cases hak : a.1 = k
  · simp [hak]
  · simp [hak]

theorem length_filter_not_add {α : Type} (p : α → Bool) (l : List α) :
    (l.filter p).length + (l.filter (fun a => !(p a))).length = l.length := by
  induction l with
  | nil => rfl
  | cons a t ih =>
    by_cases hp : p a = true
    · simp [List.filter_cons, hp]
      omega
    · rw [Bool.not_eq_true] at hp
      simp [List.filter_cons, hp]
      omega

theorem lruSetWithTTL_wf {K V : Type} [DecidableEq K] {c : LRU K V}
    (h : lruWF c) (hb : c.size ≤ c.maxSize) (k : K) (v : V) (exp now : Int) :
    lruWF (lruSetWithTTL c k v exp now) ∧
    (lruSetWithTTL c k v exp now).size ≤ c.maxSize ∧
    (lruSetWithTTL c k v exp now).maxSize = c.maxSize := by
  obtain ⟨hnd, hperm, hsize⟩ := h
  cases hf : lruFind c k with
  | some p =>
    have hmem : k ∈ c.order := mem_order_of_lruFind_some ⟨hnd, hperm, hsize⟩ hf
    obtain ⟨hnd', hperm', hlen'⟩ := moveFront_wf ⟨hnd, hperm, hsize⟩ hmem
    simp only [lruSetWithTTL, hf]
    refine ⟨⟨hnd', ?_, ?_⟩, hb, by trivial⟩
    · show List.Perm (k :: c.order.erase k)
        ((c.vals.map (fun p =>
          if p.1 == k then (k, v, if 0 < exp then now + exp else 0) else p)).map
          (fun p => p.1))
      rw [map_fst_update]
      exact hperm'.trans hperm
    · show c.size = (k :: c.order.erase k).length
      rw [hlen']
      exact hsize
  | none =>
    have hnmem : k ∉ c.order := not_mem_order_of_lruFind_none ⟨hnd, hperm, hsize⟩ hf
    have hwf1 : lruWF (⟨k :: c.order, (k, v, if 0 < exp then now + exp else 0) :: c.vals,
        c.expiration, c.maxSize, c.size + 1⟩ : LRU K V) := by
      refine ⟨?_, ?_, ?_⟩
      · exact List.nodup_cons.mpr ⟨hnmem, hnd⟩
      · show List.Perm (k :: c.order) (k :: c.vals.map (fun p => p.1))
        exact hperm.cons k
      · show c.size + 1 = c.order.length + 1
        omega
    by_cases hev : c.maxSize < c.size + 1
    · obtain ⟨t, hlast⟩ : ∃ t, (k :: c.order).getLast? = some t := by
        cases hl : (k :: c.order).getLast? with
        | none =>
          rw [List.getLast?_eq_none_iff] at hl
          cases hl
        | some t => exact ⟨t, rfl⟩
      have htmem : t ∈ (⟨k :: c.order, (k, v, if 0 < exp then now + exp else 0) :: c.vals,
          c.expiration, c.maxSize, c.size + 1⟩ : LRU K V).order :=
        List.mem_of_getLast?_eq_some hlast
      obtain ⟨hwf2, hsz2⟩ := deleteNode_wf hwf1 htmem
      simp only [lruSetWithTTL, hf, if_pos hev, hlast]
      refine ⟨hwf2, ?_, by trivial⟩
      have hsz3 : (deleteNodeByKey (⟨k :: c.order,
          (k, v, if 0 < exp then now + exp else 0) :: c.vals,
          c.expiration, c.maxSize, c.size + 1⟩ : LRU K V) t).size + 1 = c.size + 1 := hsz2
      omega
    · simp only [lruSetWithTTL, hf, if_neg hev]
      exact ⟨hwf1, by omega, by trivial⟩

theorem lruGet_wf {K V : Type} [DecidableEq K] {c : LRU K V}
    (h : lruWF c) (hb : c.size ≤ c.maxSize) (k : K) (now : Int) :
    lruWF (lruGet c k now).2 ∧ (lruGet c k now).2.size ≤ c.maxSize ∧
    (lruGet c k now).2.maxSize = c.maxSize := by
  obtain ⟨hnd, hperm, hsize⟩ := h
  cases hf : lruFind c k with
  | none =>
    simp only [lruGet, hf]
    exact ⟨⟨hnd, hperm, hsize⟩, hb, by trivial⟩
  | some p =>
    have hmem : k ∈ c.order := mem_order_of_lruFind_some ⟨hnd, hperm, hsize⟩ hf
    obtain ⟨v, e⟩ := p
    by_cases hexp : nodeHasExpired e now = true
    · obtain ⟨hwf2, hsz2⟩ := deleteNode_wf ⟨hnd, hperm, hsize⟩ hmem
      simp only [lruGet, hf, if_pos hexp]
      exact ⟨hwf2, by omega, by trivial⟩
    · rw [Bool.not_eq_true] at hexp
      obtain ⟨hnd', hperm', hlen'⟩ := moveFront_wf ⟨hnd, hperm, hsize⟩ hmem
      simp only [lruGet, hf, hexp, Bool.false_eq_true, if_false]
      refine ⟨⟨hnd', hperm'.trans hperm, ?_⟩, hb, by trivial⟩
      show c.size = (k :: c.order.erase k).length
      rw [hlen']
      exact hsize

theorem lruPeek_wf {K V : Type} [DecidableEq K] {c : LRU K V}
    (h : lruWF c) (hb : c.size ≤ c.maxSize) (k : K) (now : Int) :
    lruWF (lruPeek c k now).2 ∧ (lruPeek c k now).2.size ≤ c.maxSize ∧
    (lruPeek c k now).2.maxSize = c.maxSize := by
  obtain ⟨hnd, hperm, hsize⟩ := h
  cases hf : lruFind c k with
  | none =>
    simp only [lruPeek, hf]
    exact ⟨⟨hnd, hperm, hsize⟩, hb, by trivial⟩
  | some p =>
    have hmem : k ∈ c.order := mem_order_of_lruFind_some ⟨hnd, hperm, hsize⟩ hf
    obtain ⟨v, e⟩ := p
    by_cases hexp : nodeHasExpired e now = true
    · obtain ⟨hwf2, hsz2⟩ := deleteNode_wf ⟨hnd, hperm, hsize⟩ hmem
      simp only [lruPeek, hf, if_pos hexp]
      exact ⟨hwf2, by omega, by trivial⟩
    · rw [Bool.not_eq_true] at hexp
      simp only [lruPeek, hf, hexp, Bool.false_eq_true, if_false]
      exact ⟨⟨hnd, hperm, hsize⟩, hb, by trivial⟩

theorem lruHas_wf {K V : Type} [DecidableEq K] {c : LRU K V}
    (h : lruWF c) (hb : c.size ≤ c.maxSize) (k : K) (now : Int) :
    lruWF (lruHas c k now).2 ∧ (lruHas c k now).2.size ≤ c.maxSize ∧
    (lruHas c k now).2.maxSize = c.maxSize := by
  obtain ⟨hnd, hperm, hsize⟩ := h
  cases hf : lruFind c k with
  | none =>
    simp only [lruHas, hf]
    exact ⟨⟨hnd, hperm, hsize⟩, hb, by trivial⟩
  | some p =>
    have hmem : k ∈ c.order := mem_order_of_lruFind_some ⟨hnd, hperm, hsize⟩ hf
    obtain ⟨v, e⟩ := p
    by_cases hexp : nodeHasExpired e now = true
    · obtain ⟨hwf2, hsz2⟩ := deleteNode_wf ⟨hnd, hperm, hsize⟩ hmem
      simp only [lruHas, hf, if_pos hexp]
      exact ⟨hwf2, by omega, by trivial⟩
    · rw [Bool.not_eq_true] at hexp
      simp only [lruHas, hf, hexp, Bool.false_eq_true, if_false]
      exact ⟨⟨hnd, hperm, hsize⟩, hb, by trivial⟩

theorem lruDelete_wf {K V : Type} [DecidableEq K] {c : LRU K V}
    (h : lruWF c) (hb : c.size ≤ c.maxSize) (k : K) :
    lruWF (lruDelete c k) ∧ (lruDelete c k).size ≤ c.maxSize ∧
    (lruDelete c k).maxSize = c.maxSize := by
  cases hf : lruFind c k with
  | none =>
    simp only [lruDelete, hf]
    exact ⟨h, hb, by trivial⟩
  | some p =>
    have hmem : k ∈ c.order := mem_order_of_lruFind_some h hf
    obtain ⟨hwf2, hsz2⟩ := deleteNode_wf h hmem
    simp only [lruDelete, hf]
    exact ⟨hwf2, by omega, rfl⟩

theorem lruCleanup_wf {K V : Type} [DecidableEq K] {c : LRU K V}
    (h : lruWF c) (hb : c.size ≤ c.maxSize) (now : Int) :
    lruWF (lruCleanup c now) ∧ (lruCleanup c now).size ≤ c.maxSize ∧
    (lruCleanup c now).maxSize = c.maxSize := by
  obtain ⟨hnd, hperm, hsize⟩ := h
  have hvnd : (c.vals.map (fun p => p.1)).Nodup := hperm.nodup_iff.mp hnd
  have hq : ∀ r ∈ c.vals,
      (match lruFind c r.1 with
        | some (_, e) => !(nodeHasExpired e now)
        | none => true) = !(nodeHasExpired r.2.2 now) := by
    intro r hr
    have hfind : c.vals.find? (fun y => y.1 == r.1) = some r :=
      find?_key_eq_some_of_nodup (fun p => p.1) hvnd hr
    simp only [lruFind, hfind, Option.map_some']
  have hA : (c.vals.map (fun p => p.1)).filter (fun k =>
        match lruFind c k with
        | some (_, e) => !(nodeHasExpired e now)
        | none => true) =
      (c.vals.filter (fun p => !(nodeHasExpired p.2.2 now))).map (fun p => p.1) := by
    rw [List.filter_map]
    congr 1
    apply List.filter_congr
    intro r hr
    exact hq r hr
  have hlenv : c.order.length = c.vals.length := by
    rw [hperm.length_eq, List.length_map]
  have hcount := length_filter_not_add (fun p : K × V × Int => nodeHasExpired p.2.2 now)
    c.vals
  refine ⟨⟨?_, ?_, ?_⟩, ?_, rfl⟩
  · exact hnd.filter _
  · show List.Perm (c.order.filter _) ((c.vals.filter
      (fun p => !(nodeHasExpired p.2.2 now))).map (fun p => p.1))
    rw [← hA]
    exact hperm.filter _
  · show c.size - (c.vals.filter (fun p => nodeHasExpired p.2.2 now)).length =
      (c.order.filter _).length
    have hol : (c.order.filter (fun k =>
        match lruFind c k with
        | some (_, e) => !(nodeHasExpired e now)
        | none => true)).length =
        (c.vals.filter (fun p => !(nodeHasExpired p.2.2 now))).length := by
      rw [(hperm.filter _).length_eq, hA, List.length_map]
    rw [hol]
    omega
  · show c.size - (c.vals.filter (fun p => nodeHasExpired p.2.2 now)).length ≤ c.maxSize
    omega

/-- One caller-facing operation of an `LRUCache` history. -/
inductive LRUOp (K V : Type) where
  | set : K → V → Int → LRUOp K V
  | setWithTTL : K → V → Int → Int → LRUOp K V
  | get : K → Int → LRUOp K V
  | has : K → Int → LRUOp K V
  | peek : K → Int → LRUOp K V
  | del : K → LRUOp K V
  | clear : LRUOp K V
  | cleanup : Int → LRUOp K V

/-- Run one operation, keeping only the cache state. -/
def runLRUOp {K V : Type} [DecidableEq K] (c : LRU K V) : LRUOp K V → LRU K V
  | .set k v now => lruSet c k v now
  | .setWithTTL k v exp now => lruSetWithTTL c k v exp now
  | .get k now => (lruGet c k now).2
  | .has k now => (lruHas c k now).2
  | .peek k now => (lruPeek c k now).2
  | .del k => lruDelete c k
  | .clear => lruClear c
  | .cleanup now => lruCleanup c now

def runLRUOps {K V : Type} [DecidableEq K] (ops : List (LRUOp K V)) (c : LRU K V) :
    LRU K V :=
  ops.foldl runLRUOp c

theorem runLRUOp_wf {K V : Type} [DecidableEq K] {c : LRU K V}
    (h : lruWF c) (hb : c.size ≤ c.maxSize) (op : LRUOp K V) :
    lruWF (runLRUOp c op) ∧ (runLRUOp c op).size ≤ (runLRUOp c op).maxSize ∧
    (runLRUOp c op).maxSize = c.maxSize := by
  cases op with
  | set k v now =>
    obtain ⟨h1, h2, h3⟩ := lruSetWithTTL_wf h hb k v c.expiration now
    exact ⟨h1, by rw [show (runLRUOp c (LRUOp.set k v now)).maxSize = c.maxSize from h3]; exact h2, h3⟩
  | setWithTTL k v exp now =>
    obtain ⟨h1, h2, h3⟩ := lruSetWithTTL_wf h hb k v exp now
    exact ⟨h1, by rw [show (runLRUOp c (LRUOp.setWithTTL k v exp now)).maxSize = c.maxSize from h3]; exact h2, h3⟩
  | get k now =>
    obtain ⟨h1, h2, h3⟩ := lruGet_wf h hb k now
    exact ⟨h1, by rw [show (runLRUOp c (LRUOp.get k now)).maxSize = c.maxSize from h3]; exact h2, h3⟩
  | has k now =>
    obtain ⟨h1, h2, h3⟩ := lruHas_wf h hb k now
    exact ⟨h1, by rw [show (runLRUOp c (LRUOp.has k now)).maxSize = c.maxSize from h3]; exact h2, h3⟩
  | peek k now =>
    obtain ⟨h1, h2, h3⟩ := lruPeek_wf h hb k now
    exact ⟨h1, by rw [show (runLRUOp c (LRUOp.peek k now)).maxSize = c.maxSize from h3]; exact h2, h3⟩
  | del k =>
    obtain ⟨h1, h2, h3⟩ := lruDelete_wf h hb k
    exact ⟨h1, by rw [show (runLRUOp c (LRUOp.del k)).maxSize = c.maxSize from h3]; exact h2, h3⟩
  | clear =>
    refine ⟨⟨List.nodup_nil, List.Perm.refl _, rfl⟩, ?_, rfl⟩
    exact Nat.zero_le _
  | cleanup now =>
    obtain ⟨h1, h2, h3⟩ := lruCleanup_wf h hb now
    exact ⟨h1, by rw [show (runLRUOp c (LRUOp.cleanup now)).maxSize = c.maxSize from h3]; exact h2, h3⟩

theorem runLRUOps_wf {K V : Type} [DecidableEq K] (ops : List (LRUOp K V)) :
    ∀ (c : LRU K V), lruWF c → c.size ≤ c.maxSize →
      lruWF (runLRUOps ops c) ∧ (runLRUOps ops c).size ≤ (runLRUOps ops c).maxSize ∧
      (runLRUOps ops c).maxSize = c.maxSize := by
  induction ops with
  | nil => intro c h hb; exact ⟨h, hb, rfl⟩
  | cons op rest ih =>
    intro c h hb
    obtain ⟨h1, h2, h3⟩ := runLRUOp_wf h hb op
    obtain ⟨g1, g2, g3⟩ := ih (runLRUOp c op) h1 h2
    exact ⟨g1, g2, g3.trans h3⟩

theorem lru_fresh_sets {K V : Type} [DecidableEq K] (now : Int) :
    ∀ (kvs : List (K × V)) (c : LRU K V),
      ((kvs.map Prod.fst).Nodup) →
      (∀ p ∈ kvs, lruFind c p.1 = none) →
      c.size + kvs.length ≤ c.maxSize →
      kvs.foldl (fun acc p => lruSet acc p.1 p.2 now) c =
        ⟨(kvs.map Prod.fst).reverse ++ c.order,
         (kvs.map (fun p => (p.1, p.2,
            if 0 < c.expiration then now + c.expiration else 0))).reverse ++ c.vals,
         c.expiration, c.maxSize, c.size + kvs.length⟩ := by
  intro kvs
  induction kvs with
  | nil =>
    intro c _ _ _
    rfl
  | cons q rest ih =>
    intro c hnodup hfresh hbound
    rw [List.map_cons, List.nodup_cons] at hnodup
    rw [List.foldl_cons]
    have hf : lruFind c q.1 = none := hfresh q (List.mem_cons_self q rest)
    have hev : ¬ (c.maxSize < c.size + 1) := by
      rw [List.length_cons] at hbound
      omega
    have hstep : lruSet c q.1 q.2 now =
        (⟨q.1 :: c.order,
          (q.1, q.2, if 0 < c.expiration then now + c.expiration else 0) :: c.vals,
          c.expiration, c.maxSize, c.size + 1⟩ : LRU K V) := by
      simp only [lruSet, lruSetWithTTL, hf]
      rw [if_neg hev]
    rw [hstep]
    have hfresh' : ∀ p ∈ rest,
        lruFind (⟨q.1 :: c.order,
          (q.1, q.2, if 0 < c.expiration then now + c.expiration else 0) :: c.vals,
          c.expiration, c.maxSize, c.size + 1⟩ : LRU K V) p.1 = none := by
      intro p hp
      have hpq : (p.1 == q.1) = false := by
        rw [beq_eq_false_iff_ne]
        intro hEq
        exact hnodup.1 (hEq ▸ List.mem_map_of_mem Prod.fst hp)
      unfold lruFind
      rw [Option.map_eq_none', List.find?_eq_none]
      intro x hx
      rcases List.mem_cons.mp hx with rfl | hx'
      · intro hxe
        have hqp : q.1 = p.1 := by simpa using hxe
        exact (beq_eq_false_iff_ne.mp hpq) hqp.symm
      · intro hpx
        have hpc : lruFind c p.1 = none := hfresh p (List.mem_cons_of_mem q hp)
        unfold lruFind at hpc
        rw [Option.map_eq_none', List.find?_eq_none] at hpc
        exact absurd hpx (hpc x hx')
    have hbound' :
        (⟨q.1 :: c.order,
          (q.1, q.2, if 0 < c.expiration then now + c.expiration else 0) :: c.vals,
          c.expiration, c.maxSize, c.size + 1⟩ : LRU K V).size + rest.length ≤
        c.maxSize := by
      rw [List.length_cons] at hbound
      show c.size + 1 + rest.length ≤ c.maxSize
      omega
    rw [ih _ hnodup.2 hfresh' hbound']
    congr 1
    · rw [List.map_cons, List.reverse_cons, List.append_assoc]
      rfl
    · rw [List.map_cons, List.reverse_cons, List.append_assoc]
      rfl
    · show c.size + 1 + rest.length = c.size + (q :: rest).length
      rw [List.length_cons]
      omega

theorem lruFind_deleteNode_self {K V : Type} [DecidableEq K] (c : LRU K V) (k : K) :
    lruFind (deleteNodeByKey c k) k = none := by
  unfold lruFind deleteNodeByKey
  rw [Option.map_eq_none', List.find?_eq_none]
  intro x hx
  have hxk := (List.mem_filter.mp hx).2
  simp only [Bool.not_eq_true'] at hxk
  simp [hxk]

theorem lruSetWithTTL_evicts_tail {K V : Type} [DecidableEq K] {c : LRU K V}
    {k : K} {v : V} {exp now : Int} {tk : K}
    (hf : lruFind c k = none) (hfull : c.maxSize < c.size + 1)
    (htail : (k :: c.order).getLast? = some tk) :
    lruSetWithTTL c k v exp now =
      deleteNodeByKey (⟨k :: c.order, (k, v, if 0 < exp then now + exp else 0) :: c.vals,
        c.expiration, c.maxSize, c.size + 1⟩ : LRU K V) tk := by
  simp only [lruSetWithTTL, hf]
  rw [if_pos hfull]
  simp only [htail]

/-- C9: for every LRUCache with capacity `maxSize > 0`, `Size()` never exceeds
`maxSize` after any sequence of operations (the new-key branch of
`SetWithTTL` evicts the tail exactly when the insertion overflows); and after
`maxSize + 1` `Set` calls with pairwise distinct keys on a fresh cache,
`Size() = maxSize` and the first-inserted key is absent — the tail
(least-recently-used) node was evicted. -/
theorem C9_lru_capacity {K V : Type} [DecidableEq K]
    (m : Nat) (e : Int) (ops : List (LRUOp K V))
    (kvs : List (K × V)) (now : Int) (p₀ : K × V)
    (hm : 1 ≤ m)
    (hnodup : (kvs.map Prod.fst).Nodup) (hlen : kvs.length = m + 1)
    (hhead : kvs.head? = some p₀) :
    ((runLRUOps ops (newLRU K V m e)).size ≤ (runLRUOps ops (newLRU K V m e)).maxSize ∧
     (runLRUOps ops (newLRU K V m e)).maxSize = m) ∧
    (kvs.foldl (fun acc p => lruSet acc p.1 p.2 now) (newLRU K V m e)).size = m ∧
    lruFind (kvs.foldl (fun acc p => lruSet acc p.1 p.2 now) (newLRU K V m e)) p₀.1 =
      none := by
  have hwf0 : lruWF (newLRU K V m e) := ⟨List.nodup_nil, List.Perm.refl _, rfl⟩
  obtain ⟨g1, g2, g3⟩ := runLRUOps_wf ops (newLRU K V m e) hwf0 (Nat.zero_le m)
  refine ⟨⟨g2, g3⟩, ?_⟩
  rcases List.eq_nil_or_concat kvs with hnil | ⟨front, plast, hsplit⟩
  · rw [hnil, List.length_nil] at hlen
    omega
  · rw [List.concat_eq_append] at hsplit
    subst hsplit
    cases front with
    | nil =>
      rw [List.nil_append, List.length_cons, List.length_nil] at hlen
      omega
    | cons q t =>
      have hq : p₀ = q := by
        have h1 : q = p₀ := by simpa using hhead
        exact h1.symm
      subst hq
      rw [List.map_append, List.map_cons] at hnodup
      have hnd1 : ((p₀ :: t).map Prod.fst).Nodup := by
        rw [List.map_cons]
        exact hnodup.of_append_left
      have hdisj := List.disjoint_of_nodup_append hnodup
      have hnotin : plast.1 ∉ (p₀ :: t).map Prod.fst := by
        intro hmem
        rw [List.map_cons] at hmem
        exact hdisj hmem (by simp)
      have ht : t.length + 1 = m := by
        rw [List.length_append, List.length_cons] at hlen
        simp at hlen
        omega
      have hfront := lru_fresh_sets now (p₀ :: t) (newLRU K V m e) hnd1
        (fun p hp => rfl)
        (by
          show 0 + (p₀ :: t).length ≤ m
          rw [List.length_cons]
          omega)
      have hfoldsplit : ((p₀ :: t) ++ [plast]).foldl
          (fun acc p => lruSet acc p.1 p.2 now) (newLRU K V m e) =
          lruSet ((p₀ :: t).foldl (fun acc p => lruSet acc p.1 p.2 now)
            (newLRU K V m e)) plast.1 plast.2 now := by
        rw [List.foldl_append]
        rfl
      rw [hfoldsplit, hfront]
      have hffind : lruFind (⟨((p₀ :: t).map Prod.fst).reverse ++ (newLRU K V m e).order,
          ((p₀ :: t).map (fun p => (p.1, p.2,
            if 0 < (newLRU K V m e).expiration then now + (newLRU K V m e).expiration
            else 0))).reverse ++ (newLRU K V m e).vals,
          (newLRU K V m e).expiration, (newLRU K V m e).maxSize,
          (newLRU K V m e).size + (p₀ :: t).length⟩ : LRU K V) plast.1 = none := by
        unfold lruFind
        rw [Option.map_eq_none', List.find?_eq_none]
        intro x hx
        rw [show (newLRU K V m e).vals = [] from rfl, List.append_nil] at hx
        rw [List.mem_reverse, List.mem_map] at hx
        obtain ⟨p, hp, hpx⟩ := hx
        intro hxe
        have hx1 : x.1 = plast.1 := by simpa using hxe
        apply hnotin
        rw [← hx1, ← hpx]
        exact List.mem_map_of_mem Prod.fst hp
      have hfull : (⟨((p₀ :: t).map Prod.fst).reverse ++ (newLRU K V m e).order,
          ((p₀ :: t).map (fun p => (p.1, p.2,
            if 0 < (newLRU K V m e).expiration then now + (newLRU K V m e).expiration
            else 0))).reverse ++ (newLRU K V m e).vals,
          (newLRU K V m e).expiration, (newLRU K V m e).maxSize,
          (newLRU K V m e).size + (p₀ :: t).length⟩ : LRU K V).maxSize <
          (⟨((p₀ :: t).map Prod.fst).reverse ++ (newLRU K V m e).order,
          ((p₀ :: t).map (fun p => (p.1, p.2,
            if 0 < (newLRU K V m e).expiration then now + (newLRU K V m e).expiration
            else 0))).reverse ++ (newLRU K V m e).vals,
          (newLRU K V m e).expiration, (newLRU K V m e).maxSize,
          (newLRU K V m e).size + (p₀ :: t).length⟩ : LRU K V).size + 1 := by
        show m < 0 + (p₀ :: t).length + 1
        rw [List.length_cons]
        omega
      have htail : (plast.1 :: (((p₀ :: t).map Prod.fst).reverse ++
          (newLRU K V m e).order)).getLast? = some p₀.1 := by
        rw [show (newLRU K V m e).order = [] from rfl]
        rw [List.append_nil, List.map_cons, List.reverse_cons, ← List.cons_append]
        exact List.getLast?_concat _
      have hstep := @lruSetWithTTL_evicts_tail K V _ _ plast.1 plast.2
        (⟨((p₀ :: t).map Prod.fst).reverse ++ (newLRU K V m e).order,
          ((p₀ :: t).map (fun p => (p.1, p.2,
            if 0 < (newLRU K V m e).expiration then now + (newLRU K V m e).expiration
            else 0))).reverse ++ (newLRU K V m e).vals,
          (newLRU K V m e).expiration, (newLRU K V m e).maxSize,
          (newLRU K V m e).size + (p₀ :: t).length⟩ : LRU K V).expiration now _
        hffind hfull htail
      rw [show (lruSet (⟨((p₀ :: t).map Prod.fst).reverse ++ (newLRU K V m e).order,
          ((p₀ :: t).map (fun p => (p.1, p.2,
            if 0 < (newLRU K V m e).expiration then now + (newLRU K V m e).expiration
            else 0))).reverse ++ (newLRU K V m e).vals,
          (newLRU K V m e).expiration, (newLRU K V m e).maxSize,
          (newLRU K V m e).size + (p₀ :: t).length⟩ : LRU K V) plast.1 plast.2 now) =
          lruSetWithTTL (⟨((p₀ :: t).map Prod.fst).reverse ++ (newLRU K V m e).order,
          ((p₀ :: t).map (fun p => (p.1, p.2,
            if 0 < (newLRU K V m e).expiration then now + (newLRU K V m e).expiration
            else 0))).reverse ++ (newLRU K V m e).vals,
          (newLRU K V m e).expiration, (newLRU K V m e).maxSize,
          (newLRU K V m e).size + (p₀ :: t).length⟩ : LRU K V) plast.1 plast.2
          (⟨((p₀ :: t).map Prod.fst).reverse ++ (newLRU K V m e).order,
          ((p₀ :: t).map (fun p => (p.1, p.2,
            if 0 < (newLRU K V m e).expiration then now + (newLRU K V m e).expiration
            else 0))).reverse ++ (newLRU K V m e).vals,
          (newLRU K V m e).expiration, (newLRU K V m e).maxSize,
          (newLRU K V m e).size + (p₀ :: t).length⟩ : LRU K V).expiration now from rfl,
        hstep]
      constructor
      · show (newLRU K V m e).size + (p₀ :: t).length + 1 - 1 = m
        show 0 + (p₀ :: t).length + 1 - 1 = m
        rw [List.length_cons]
        omega
      · exact lruFind_deleteNode_self _ _

/-- Witness for `C9_lru_capacity`: capacity 2, three `Set` calls with distinct
keys; the size ends at 2 and key 1 (the first inserted) was evicted. -/
theorem C9_lru_capacity_witness :
    (1 ≤ 2 ∧ (([(1, 10), (2, 20), (3, 30)] : List (Nat × Nat)).map Prod.fst).Nodup ∧
      ([(1, 10), (2, 20), (3, 30)] : List (Nat × Nat)).length = 2 + 1) ∧
    (([(1, 10), (2, 20), (3, 30)] : List (Nat × Nat)).foldl
      (fun acc p => lruSet acc p.1 p.2 0) (newLRU Nat Nat 2 0)).size = 2 ∧
    lruFind (([(1, 10), (2, 20), (3, 30)] : List (Nat × Nat)).foldl
      (fun acc p => lruSet acc p.1 p.2 0) (newLRU Nat Nat 2 0)) 1 = none := by
  have hc := C9_lru_capacity 2 0 ([] : List (LRUOp Nat Nat))
    [(1, 10), (2, 20), (3, 30)] 0 (1, 10) (by decide) (by decide) (by decide) (by decide)
  exact ⟨⟨by decide, by decide, by decide⟩, hc.2.1, hc.2.2⟩

end GoStorage
